import Mathlib

/-!
# Verification of the timeseries-db storage engine

Shallow embedding of the Gorilla bit codec (`src/db/compression.rs`), the
memtable (`src/db/memtable.rs`), the segment file operations
(`src/db/sstable.rs`) and the engine read/flush/compact paths
(`src/db/engine.rs`), together with proofs and refutations of the frozen
specification claims.

Modelling conventions:
* `u64` values are `Nat` together with explicit `% 2 ^ 64` where the Rust
  code can wrap; `i64` values are `Int` normalised through `wrapI64`.
* `f64` sample values are represented by their IEEE-754 bit patterns
  (`Nat < 2 ^ 64`).  The codec and the engine only ever move values through
  `to_bits` / `from_bits` and never compare or compute with them as floats,
  so this representation is exact.
* Byte buffers are `List Nat` (each entry a byte value).
* Filesystem-backed segment contents are modelled as
  `Option (List SeriesData)` (`none` = the file does not exist).
-/

set_option maxHeartbeats 1000000
set_option maxRecDepth 10000
set_option linter.unnecessarySeqFocus false
set_option linter.unusedVariables false

namespace TSDB

/-! ## 64-bit arithmetic helpers -/

/-- Interpret a `u64` bit pattern as an `i64` (the Rust `as i64` cast). -/
def toI64 (n : Nat) : Int :=
  if n < 2 ^ 63 then (n : Int) else (n : Int) - 2 ^ 64

/-- Truncate an integer to a `u64` (the Rust `as u64` cast of a wrapped value). -/
def toU64 (x : Int) : Nat :=
  (x % (2 ^ 64 : Int)).toNat

/-- Normalise an integer into the `i64` range (two's-complement wrap-around,
the result of Rust `wrapping_add` / `wrapping_sub` on `i64`). -/
def wrapI64 (x : Int) : Int :=
  (x + 2 ^ 63) % 2 ^ 64 - 2 ^ 63

theorem wrapI64_lb (x : Int) : -2 ^ 63 ≤ wrapI64 x := by
  have := Int.emod_nonneg (x + 2 ^ 63) (by norm_num : (2 ^ 64 : Int) ≠ 0)
  unfold wrapI64; omega

theorem wrapI64_ub (x : Int) : wrapI64 x < 2 ^ 63 := by
  have := Int.emod_lt_of_pos (x + 2 ^ 63) (by norm_num : (0 : Int) < 2 ^ 64)
  unfold wrapI64; omega

theorem wrapI64_eq_self {x : Int} (h1 : -2 ^ 63 ≤ x) (h2 : x < 2 ^ 63) :
    wrapI64 x = x := by
  unfold wrapI64
  have : (x + 2 ^ 63) % 2 ^ 64 = x + 2 ^ 63 := Int.emod_eq_of_lt (by omega) (by omega)
  omega

theorem wrapI64_emod (x : Int) : wrapI64 x % 2 ^ 64 = x % 2 ^ 64 := by
  unfold wrapI64
  omega

theorem toU64_lt (x : Int) : toU64 x < 2 ^ 64 := by
  unfold toU64
  have h1 := Int.emod_nonneg x (by norm_num : (2 ^ 64 : Int) ≠ 0)
  have h2 := Int.emod_lt_of_pos x (by norm_num : (0 : Int) < 2 ^ 64)
  omega

theorem toU64_toI64 {n : Nat} (h : n < 2 ^ 64) : toU64 (toI64 n) = n := by
  unfold toU64 toI64
  split
  · rw [Int.emod_eq_of_lt (by positivity) (by exact_mod_cast h)]
    simp
  · have : ((n : Int) - 2 ^ 64) % 2 ^ 64 = (n : Int) - 2 ^ 64 + 2 ^ 64 := by
      omega
    rw [this]
    omega

theorem toI64_lb (n : Nat) : -2 ^ 63 ≤ toI64 n := by
  unfold toI64; split <;> omega

theorem toI64_ub {n : Nat} (h : n < 2 ^ 64) : toI64 n < 2 ^ 63 := by
  unfold toI64; split <;> omega

theorem toU64_congr {x y : Int} (h : x % 2 ^ 64 = y % 2 ^ 64) : toU64 x = toU64 y := by
  unfold toU64; rw [h]

theorem toU64_wrapI64 (x : Int) : toU64 (wrapI64 x) = toU64 x :=
  toU64_congr (wrapI64_emod x)

/-- The signed difference of two `u64` timestamps, as computed by
`(timestamp as i64).wrapping_sub(prev_ts as i64)`. -/
def deltaOf (prev t : Nat) : Int :=
  wrapI64 (toI64 t - toI64 prev)

theorem toU64_add_deltaOf {prev t : Nat} (_hp : prev < 2 ^ 64) (ht : t < 2 ^ 64) :
    toU64 (toI64 prev + deltaOf prev t) = t := by
  have h1 : (toI64 prev + deltaOf prev t) % 2 ^ 64 = toI64 t % 2 ^ 64 := by
    unfold deltaOf
    have := wrapI64_emod (toI64 t - toI64 prev)
    omega
  calc toU64 (toI64 prev + deltaOf prev t) = toU64 (toI64 t) := toU64_congr h1
    _ = t := toU64_toI64 ht

/-! ## Bits -/

/-- Bit `7 - j % 8` of byte `j / 8`: position `j` in the big-endian bit stream
over a byte buffer. -/
def bitAt (buf : List Nat) (j : Nat) : Bool :=
  (buf.getD (j / 8) 0).testBit (7 - j % 8)

/-- The most-significant-first bits of the low `n` bits of `v`. -/
def natBitsM (n v : Nat) : List Bool :=
  (List.range n).map fun i => v.testBit (n - 1 - i)

@[simp] theorem natBitsM_length (n v : Nat) : (natBitsM n v).length = n := by
  simp [natBitsM]

theorem natBitsM_getD {n v i : Nat} (h : i < n) :
    (natBitsM n v).getD i false = v.testBit (n - 1 - i) := by
  simp [natBitsM, List.getD_eq_getElem?_getD, List.getElem?_map, List.getElem?_range h]

/-- The buffer carries bit string `bs` starting at bit position `pos`. -/
def HasBits (buf : List Nat) (pos : Nat) (bs : List Bool) : Prop :=
  ∀ i, i < bs.length → bitAt buf (pos + i) = bs.getD i false

theorem getD_append_left {a b : List Bool} {i : Nat} (h : i < a.length) :
    (a ++ b).getD i false = a.getD i false := by
  simp [List.getD_eq_getElem?_getD, List.getElem?_append_left h]

theorem getD_append_right' {a b : List Bool} {i : Nat} (h : a.length ≤ i) :
    (a ++ b).getD i false = b.getD (i - a.length) false := by
  simp [List.getD_eq_getElem?_getD, List.getElem?_append_right h]

theorem HasBits.append {buf : List Nat} {pos : Nat} {a b : List Bool}
    (ha : HasBits buf pos a) (hb : HasBits buf (pos + a.length) b) :
    HasBits buf pos (a ++ b) := by
  intro i hi
  rcases Nat.lt_or_ge i a.length with h | h
  · rw [getD_append_left h]
    exact ha i h
  · have heq : pos + i = pos + a.length + (i - a.length) := by omega
    rw [heq, getD_append_right' h]
    exact hb _ (by simp at hi; omega)

theorem HasBits.left {buf : List Nat} {pos : Nat} {a b : List Bool}
    (h : HasBits buf pos (a ++ b)) : HasBits buf pos a := by
  intro i hi
  have := h i (by simp; omega)
  rwa [getD_append_left hi] at this

theorem HasBits.right {buf : List Nat} {pos : Nat} {a b : List Bool}
    (h : HasBits buf pos (a ++ b)) : HasBits buf (pos + a.length) b := by
  intro i hi
  have := h (a.length + i) (by simp; omega)
  rw [getD_append_right' (by omega)] at this
  simp only [Nat.add_sub_cancel_left] at this
  rw [Nat.add_assoc]
  exact this

/-! ## Bit writer (`GorillaBitWriter`) -/

structure GorillaBitWriter where
  buffer : List Nat
  bit_pos : Nat
deriving Repr, DecidableEq

def GorillaBitWriter.new : GorillaBitWriter := ⟨[], 0⟩

/-- One iteration of the loop body of `write_bits` (writing a single bit
`b ∈ {0,1}` at the current bit position). -/
def writeBitStep (w : GorillaBitWriter) (b : Nat) : GorillaBitWriter :=
  let buf := if w.bit_pos % 8 = 0 then w.buffer ++ [0] else w.buffer
  let byteIndex := w.bit_pos / 8
  let bitIndex := 7 - w.bit_pos % 8
  let buf' := if byteIndex < buf.length ∧ b = 1 then
      buf.set byteIndex (buf.getD byteIndex 0 ||| (1 <<< bitIndex))
    else buf
  ⟨buf', w.bit_pos + 1⟩

/-- Bits `num_bits - 1, …, 0` of `value`, written most-significant first
(the `for i in (0..num_bits).rev()` loop). -/
def writeBitsAux (value : Nat) : GorillaBitWriter → Nat → GorillaBitWriter
  | w, 0 => w
  | w, i + 1 => writeBitsAux value (writeBitStep w ((value >>> i) &&& 1)) i

/-- `GorillaBitWriter::write_bits`. -/
def write_bits (w : GorillaBitWriter) (value num_bits : Nat) : GorillaBitWriter :=
  if num_bits = 0 ∨ 64 < num_bits then w
  else writeBitsAux value w num_bits

/-- `GorillaBitWriter::get_bytes` (the accumulated buffer). -/
def get_bytes (w : GorillaBitWriter) : List Nat := w.buffer

/-- Writer well-formedness: the buffer holds exactly the bytes needed for
`bit_pos` bits, and every bit at or above `bit_pos` is still clear. -/
def WWF (w : GorillaBitWriter) : Prop :=
  w.buffer.length = (w.bit_pos + 7) / 8 ∧ ∀ j, w.bit_pos ≤ j → bitAt w.buffer j = false

theorem WWF_new : WWF GorillaBitWriter.new := by
  constructor
  · rfl
  · intro j _
    simp [bitAt, GorillaBitWriter.new, List.getD]

theorem bitAt_append {buf extra : List Nat} {j : Nat} (h : j / 8 < buf.length) :
    bitAt (buf ++ extra) j = bitAt buf j := by
  unfold bitAt
  rw [List.getD_eq_getElem?_getD, List.getD_eq_getElem?_getD,
    List.getElem?_append_left h]

theorem bitAt_set_or {buf : List Nat} {k m j : Nat} (hk : k < buf.length) (_hm : m ≤ 7) :
    bitAt (buf.set k (buf.getD k 0 ||| 1 <<< m)) j =
      (bitAt buf j || decide (j / 8 = k ∧ 7 - j % 8 = m)) := by
  unfold bitAt
  rcases eq_or_ne (j / 8) k with h | h
  · subst h
    rw [List.getD_eq_getElem?_getD, List.getElem?_set_self hk]
    simp only [Option.getD_some]
    rw [Nat.one_shiftLeft, Nat.testBit_or, Nat.testBit_two_pow]
    rcases eq_or_ne (7 - j % 8) m with hm' | hm'
    · simp [hm']
    · simp [hm', Ne.symm hm']
  · rw [List.getD_eq_getElem?_getD, List.getElem?_set_ne (Ne.symm h),
      ← List.getD_eq_getElem?_getD]
    simp [h]

/-- Effect of one bit-write step: position advances by one, the bit at the old
position becomes `b`, every other bit keeps its value, well-formedness is
preserved. -/
theorem writeBitStep_spec {w : GorillaBitWriter} {b : Nat} (hb : b ≤ 1) (hwf : WWF w) :
    WWF (writeBitStep w b) ∧ (writeBitStep w b).bit_pos = w.bit_pos + 1 ∧
      (∀ j, j ≠ w.bit_pos → bitAt (writeBitStep w b).buffer j = bitAt w.buffer j) ∧
      bitAt (writeBitStep w b).buffer w.bit_pos = decide (b = 1) := by
  obtain ⟨hlen, hzero⟩ := hwf
  set p := w.bit_pos with hp
  -- the intermediate buffer after the conditional push of a zero byte
  set buf : List Nat := if p % 8 = 0 then w.buffer ++ [0] else w.buffer with hbuf
  have hbuflen : buf.length = p / 8 + 1 := by
    rw [hbuf]
    rcases Nat.eq_zero_or_pos (p % 8) with h8 | h8
    · rw [if_pos h8]
      simp only [List.length_append, List.length_cons, List.length_nil, hlen]
      omega
    · rw [if_neg (by omega)]
      rw [hlen]
      omega
  have hbufbit : ∀ j, bitAt buf j = bitAt w.buffer j := by
    intro j
    rw [hbuf]
    rcases Nat.eq_zero_or_pos (p % 8) with h8 | h8
    · rw [if_pos h8]
      rcases Nat.lt_or_ge (j / 8) w.buffer.length with h | h
      · exact bitAt_append h
      · have h1 : bitAt w.buffer j = false := by
          unfold bitAt
          rw [List.getD_eq_getElem?_getD, List.getElem?_eq_none (by omega)]
          simp
        have h2 : bitAt (w.buffer ++ [0]) j = false := by
          unfold bitAt
          rcases Nat.lt_or_ge (j / 8) (w.buffer ++ [0]).length with h' | h'
          · have : (w.buffer ++ [0]).getD (j / 8) 0 = 0 := by
              rw [List.getD_eq_getElem?_getD, List.getElem?_append_right h]
              simp only [List.length_append, List.length_cons, List.length_nil] at h'
              have : j / 8 - w.buffer.length = 0 := by omega
              rw [this]
              rfl
            rw [this]
            simp
          · rw [List.getD_eq_getElem?_getD, List.getElem?_eq_none (by omega)]
            simp
        rw [h1, h2]
    · rw [if_neg (by omega)]
  have hbit_hi : ∀ j, p ≤ j → bitAt buf j = false := fun j hj => by
    rw [hbufbit]; exact hzero j hj
  have hidx : p / 8 < buf.length := by omega
  -- final buffer
  set buf' : List Nat := if p / 8 < buf.length ∧ b = 1 then
      buf.set (p / 8) (buf.getD (p / 8) 0 ||| 1 <<< (7 - p % 8))
    else buf with hbuf'
  have hstep : writeBitStep w b = ⟨buf', p + 1⟩ := rfl
  have hlen' : buf'.length = buf.length := by
    rw [hbuf']
    split <;> simp
  have hbit' : ∀ j, bitAt buf' j =
      (bitAt buf j || decide (b = 1 ∧ j / 8 = p / 8 ∧ 7 - j % 8 = 7 - p % 8)) := by
    intro j
    rw [hbuf']
    rcases Nat.eq_zero_or_pos b with hb0 | hb1
    · rw [if_neg (by omega)]
      have : ¬ (b = 1) := by omega
      simp [this]
    · have hb1' : b = 1 := by omega
      rw [if_pos ⟨hidx, hb1'⟩]
      rw [bitAt_set_or hidx (by omega)]
      simp [hb1']
  have key : ∀ j, j ≠ p → (j / 8 = p / 8 ∧ 7 - j % 8 = 7 - p % 8) → False := by
    intro j hj hc
    obtain ⟨h1, h2⟩ := hc
    have hj8 : j % 8 < 8 := Nat.mod_lt _ (by omega)
    have hp8 : p % 8 < 8 := Nat.mod_lt _ (by omega)
    have h3 : j % 8 = p % 8 := by omega
    have hj' := Nat.div_add_mod j 8
    have hp' := Nat.div_add_mod p 8
    omega
  rw [hstep]
  refine ⟨⟨?_, ?_⟩, rfl, ?_, ?_⟩
  · show buf'.length = (p + 1 + 7) / 8
    rw [hlen', hbuflen]
    omega
  · intro j hj
    simp only at hj
    show bitAt buf' j = false
    rw [hbit', hbit_hi j (by omega)]
    have : ¬ (b = 1 ∧ j / 8 = p / 8 ∧ 7 - j % 8 = 7 - p % 8) := by
      rintro ⟨_, h2⟩
      exact key j (by omega) h2
    simp [this]
  · intro j hj
    show bitAt buf' j = bitAt w.buffer j
    rw [hbit', ← hbufbit j]
    have : ¬ (b = 1 ∧ j / 8 = p / 8 ∧ 7 - j % 8 = 7 - p % 8) := by
      rintro ⟨_, h2⟩
      exact key j hj h2
    simp [this]
  · show bitAt buf' p = decide (b = 1)
    rw [hbit', hbit_hi p (by omega)]
    rcases Nat.eq_zero_or_pos b with hb0 | hb1
    · have h1 : ¬ (b = 1) := by omega
      simp [h1]
    · have h1 : b = 1 := by omega
      simp [h1]

theorem shiftRight_and_one (value n : Nat) :
    (value >>> n) &&& 1 = if value.testBit n then 1 else 0 := by
  rw [Nat.and_one_is_mod, Nat.shiftRight_eq_div_pow, Nat.testBit_to_div_mod]
  rcases Nat.mod_two_eq_zero_or_one (value / 2 ^ n) with h | h <;> simp [h]

/-- Effect of the write loop over bits `n-1 … 0` of `value`. -/
theorem writeBitsAux_spec (value : Nat) :
    ∀ n w, WWF w →
      WWF (writeBitsAux value w n) ∧
      (writeBitsAux value w n).bit_pos = w.bit_pos + n ∧
      (∀ j, j < w.bit_pos → bitAt (writeBitsAux value w n).buffer j = bitAt w.buffer j) ∧
      (∀ i, i < n → bitAt (writeBitsAux value w n).buffer (w.bit_pos + i) =
        value.testBit (n - 1 - i)) := by
  intro n
  induction n with
  | zero =>
    intro w hwf
    exact ⟨hwf, rfl, fun j _ => rfl, fun i hi => absurd hi (by omega)⟩
  | succ n ih =>
    intro w hwf
    have hb : (value >>> n) &&& 1 ≤ 1 := by
      rw [shiftRight_and_one]
      split <;> omega
    obtain ⟨hwf1, hpos1, hpres1, hbit1⟩ := writeBitStep_spec hb hwf
    set w1 := writeBitStep w ((value >>> n) &&& 1) with hw1
    obtain ⟨hwf2, hpos2, hpres2, hbit2⟩ := ih w1 hwf1
    have hstep : writeBitsAux value w (n + 1) = writeBitsAux value w1 n := rfl
    rw [hstep]
    refine ⟨hwf2, by omega, ?_, ?_⟩
    · intro j hj
      rw [hpres2 j (by omega), hpres1 j (by omega)]
    · intro i hi
      rcases Nat.eq_zero_or_pos i with h0 | h0
      · subst h0
        rw [Nat.add_zero]
        rw [hpres2 w.bit_pos (by omega), hbit1, shiftRight_and_one]
        have : n + 1 - 1 - 0 = n := by omega
        rw [this]
        rcases Bool.eq_false_or_eq_true (value.testBit n) with h | h <;> simp [h]
      · obtain ⟨i', rfl⟩ : ∃ i', i = i' + 1 := ⟨i - 1, by omega⟩
        have : w.bit_pos + (i' + 1) = w1.bit_pos + i' := by omega
        rw [this, hbit2 i' (by omega)]
        congr 1
        omega

/-- Specification of `write_bits` for widths `1 ≤ n ≤ 64`: the position
advances by `n`, bits below the old position are untouched, and the `n` new
bits are the low `n` bits of `value`, most-significant first. -/
theorem write_bits_spec {w : GorillaBitWriter} {value n : Nat}
    (h1 : 1 ≤ n) (h64 : n ≤ 64) (hwf : WWF w) :
    WWF (write_bits w value n) ∧
    (write_bits w value n).bit_pos = w.bit_pos + n ∧
    (∀ j, j < w.bit_pos → bitAt (write_bits w value n).buffer j = bitAt w.buffer j) ∧
    HasBits (write_bits w value n).buffer w.bit_pos (natBitsM n value) := by
  have hn : ¬ (n = 0 ∨ 64 < n) := by omega
  rw [write_bits, if_neg hn]
  obtain ⟨ha, hb, hc, hd⟩ := writeBitsAux_spec value n w hwf
  refine ⟨ha, hb, hc, ?_⟩
  intro i hi
  rw [natBitsM_length] at hi
  rw [hd i hi, natBitsM_getD hi]

/-- Bits already written are preserved by any later `write_bits`. -/
theorem write_bits_preserves {w : GorillaBitWriter} {value n : Nat} {pos : Nat}
    {bs : List Bool} (hwf : WWF w) (hhas : HasBits w.buffer pos bs)
    (hbelow : pos + bs.length ≤ w.bit_pos) :
    HasBits (write_bits w value n).buffer pos bs := by
  intro i hi
  rw [write_bits]
  split
  · exact hhas i hi
  · obtain ⟨_, _, hc, _⟩ := writeBitsAux_spec value n w hwf
    rw [hc (pos + i) (by omega)]
    exact hhas i hi

/-- The bit position of `write_bits` never decreases. -/
theorem write_bits_pos_ge {w : GorillaBitWriter} {value n : Nat} (hwf : WWF w) :
    w.bit_pos ≤ (write_bits w value n).bit_pos := by
  rw [write_bits]
  split
  · exact Nat.le_refl _
  · obtain ⟨_, hb, _, _⟩ := writeBitsAux_spec value n w hwf
    omega

/-! ## Bit reader (`GorillaBitReader`) -/

structure GorillaBitReader where
  buffer : List Nat
  bit_pos : Nat
deriving Repr, DecidableEq

def GorillaBitReader.new (data : List Nat) : GorillaBitReader := ⟨data, 0⟩

/-- The extraction loop of `read_bits`: reads `fuel` bits starting at `pos`,
accumulating `result = (result << 1) | bit` (`u64` arithmetic). Returns the
accumulated value (or the in-loop failure sentinel) and the final position. -/
def readBitsLoop (buf : List Nat) : Nat → Nat → Nat → Option Nat × Nat
  | pos, result, 0 => (some result, pos)
  | pos, result, fuel + 1 =>
    if buf.length ≤ pos / 8 then (none, pos)
    else
      let bit := (buf.getD (pos / 8) 0 >>> (7 - pos % 8)) &&& 1
      readBitsLoop buf (pos + 1) ((result <<< 1) % 2 ^ 64 ||| bit) fuel

/-- `GorillaBitReader::read_bits`. -/
def read_bits (r : GorillaBitReader) (num_bits : Nat) : Option Nat × GorillaBitReader :=
  if num_bits = 0 ∨ 64 < num_bits then (some 0, r)
  else if r.buffer.length * 8 < r.bit_pos + num_bits then (none, r)
  else
    let res := readBitsLoop r.buffer r.bit_pos 0 num_bits
    (res.1, ⟨r.buffer, res.2⟩)

/-- `GorillaBitReader::has_more_data`. -/
def has_more_data (r : GorillaBitReader) : Bool :=
  r.bit_pos < r.buffer.length * 8

/-- MSB-first numeric accumulation of a bit string (matching the reader's
`(result << 1) | bit` loop). -/
def valMAux : Nat → List Bool → Nat
  | acc, [] => acc
  | acc, b :: bs => valMAux (2 * acc + (if b then 1 else 0)) bs

/-- MSB-first numeric value of a bit string. -/
def valM (bs : List Bool) : Nat := valMAux 0 bs

theorem valMAux_acc : ∀ (bs : List Bool) (acc : Nat),
    valMAux acc bs = acc * 2 ^ bs.length + valM bs := by
  intro bs
  induction bs with
  | nil => intro acc; simp [valMAux, valM]
  | cons b bs ih =>
    intro acc
    show valMAux (2 * acc + (if b then 1 else 0)) bs = _
    rw [ih]
    have hrhs : valM (b :: bs) = (if b then 1 else 0) * 2 ^ bs.length + valM bs := by
      show valMAux (2 * 0 + (if b then 1 else 0)) bs = _
      rw [ih]
      ring_nf
    rw [hrhs]
    simp only [List.length_cons, pow_succ]
    ring

theorem valM_cons (b : Bool) (bs : List Bool) :
    valM (b :: bs) = (if b then 1 else 0) * 2 ^ bs.length + valM bs := by
  show valMAux (2 * 0 + (if b then 1 else 0)) bs = _
  rw [valMAux_acc]
  ring_nf

theorem valM_lt (bs : List Bool) : valM bs < 2 ^ bs.length := by
  induction bs with
  | nil => simp [valM, valMAux]
  | cons b bs ih =>
    rw [valM_cons]
    simp only [List.length_cons, pow_succ]
    have : (if b then (1 : Nat) else 0) ≤ 1 := by split <;> omega
    have h2 : (if b then (1 : Nat) else 0) * 2 ^ bs.length ≤ 2 ^ bs.length := by
      split <;> omega
    omega

theorem natBitsM_succ (n v : Nat) :
    natBitsM (n + 1) v = v.testBit n :: natBitsM n v := by
  unfold natBitsM
  rw [List.range_succ_eq_map]
  simp only [List.map_cons, List.map_map]
  congr 1
  apply List.map_congr_left
  intro i _
  simp only [Function.comp_apply]
  have h1 : n + 1 - 1 - (i + 1) = n - 1 - i := by omega
  rw [h1]

theorem valM_natBitsM (n v : Nat) : valM (natBitsM n v) = v % 2 ^ n := by
  induction n with
  | zero => simp [valM, natBitsM, valMAux, Nat.mod_one]
  | succ n ih =>
    rw [natBitsM_succ, valM_cons, natBitsM_length, ih]
    have hmod : v % 2 ^ (n + 1) = (if v.testBit n then 2 ^ n else 0) + v % 2 ^ n := by
      rw [Nat.testBit_to_div_mod]
      have h1 : (2 : Nat) ^ (n + 1) = 2 ^ n * 2 := by ring
      rw [h1, Nat.mod_mul]
      rcases Nat.mod_two_eq_zero_or_one (v / 2 ^ n) with h | h <;> simp [h] <;> omega
    rw [hmod]
    split <;> simp

/-- The bit string of the buffer from position `pos`, `n` bits long. -/
def bitsSeg (buf : List Nat) (pos n : Nat) : List Bool :=
  (List.range n).map fun i => bitAt buf (pos + i)

theorem bitsSeg_succ (buf : List Nat) (pos n : Nat) :
    bitsSeg buf pos (n + 1) = bitAt buf pos :: bitsSeg buf (pos + 1) n := by
  unfold bitsSeg
  rw [List.range_succ_eq_map]
  simp only [List.map_cons, List.map_map, Nat.add_zero]
  congr 1
  apply List.map_congr_left
  intro i _
  simp only [Function.comp_apply]
  congr 1
  omega

theorem bitsSeg_of_hasBits {buf : List Nat} {pos : Nat} {bs : List Bool}
    (h : HasBits buf pos bs) : bitsSeg buf pos bs.length = bs := by
  apply List.ext_getElem
  · simp [bitsSeg]
  · intro i h1 h2
    unfold bitsSeg
    simp only [List.getElem_map, List.getElem_range]
    have := h i h2
    rw [List.getD_eq_getElem?_getD, List.getElem?_eq_getElem h2] at this
    simpa using this

theorem readBitsLoop_spec (buf : List Nat) :
    ∀ n pos acc, pos + n ≤ 8 * buf.length → acc < 2 ^ (64 - n) → n ≤ 64 →
      readBitsLoop buf pos acc n = (some (valMAux acc (bitsSeg buf pos n)), pos + n) := by
  intro n
  induction n with
  | zero =>
    intro pos acc _ _ _
    simp [readBitsLoop, bitsSeg, valMAux]
  | succ n ih =>
    intro pos acc hbound hacc hn
    have hlt : pos / 8 < buf.length := by omega
    have hbit : (buf.getD (pos / 8) 0 >>> (7 - pos % 8)) &&& 1 =
        if bitAt buf pos then 1 else 0 := by
      rw [shiftRight_and_one]
      rfl
    have hacclt : acc < 2 ^ 63 := by
      have h2 : (2 : Nat) ^ (64 - (n + 1)) ≤ 2 ^ 63 := Nat.pow_le_pow_right (by omega) (by omega)
      omega
    have hshl : (acc <<< 1) % 2 ^ 64 = 2 * acc := by
      rw [Nat.shiftLeft_eq]
      have h3 : (2 : Nat) ^ 64 = 2 * 2 ^ 63 := by ring
      have h1 : acc * 2 ^ 1 < 2 ^ 64 := by
        rw [pow_one, h3]
        omega
      rw [Nat.mod_eq_of_lt h1]
      ring
    have hor : ∀ b : Nat, b < 2 → 2 * acc ||| b = 2 * acc + b := by
      intro b hb
      have hb' : b < 2 ^ 1 := by omega
      have h2 := Nat.mul_add_lt_is_or hb' acc
      rw [pow_one] at h2
      exact h2.symm
    have hbit1 : (if bitAt buf pos then (1 : Nat) else 0) < 2 := by split <;> omega
    have hstep : readBitsLoop buf pos acc (n + 1) =
        readBitsLoop buf (pos + 1) (2 * acc + (if bitAt buf pos then 1 else 0)) n := by
      rw [readBitsLoop, if_neg (by omega)]
      show readBitsLoop buf (pos + 1)
        ((acc <<< 1) % 2 ^ 64 ||| ((buf.getD (pos / 8) 0 >>> (7 - pos % 8)) &&& 1)) n = _
      rw [hbit, hshl, hor _ hbit1]
    have hacc' : 2 * acc + (if bitAt buf pos then (1 : Nat) else 0) < 2 ^ (64 - n) := by
      have he : (2 : Nat) ^ (64 - n) = 2 * 2 ^ (64 - (n + 1)) := by
        have h4 : 64 - n = (64 - (n + 1)) + 1 := by omega
        rw [h4]
        ring
      rw [he]
      omega
    rw [hstep, ih (pos + 1) _ (by omega) hacc' (by omega)]
    rw [bitsSeg_succ]
    show _ = (some (valMAux (2 * acc + (if bitAt buf pos then 1 else 0)) (bitsSeg buf (pos + 1) n)), _)
    congr 1
    omega

/-- `read_bits` reads back exactly the `n`-bit big-endian chunk present at the
current position, and advances by `n` bits. -/
theorem read_bits_spec {buf : List Nat} {pos n v : Nat}
    (h1 : 1 ≤ n) (h64 : n ≤ 64) (hbound : pos + n ≤ 8 * buf.length)
    (hbits : HasBits buf pos (natBitsM n v)) :
    read_bits ⟨buf, pos⟩ n = (some (v % 2 ^ n), ⟨buf, pos + n⟩) := by
  rw [read_bits, if_neg (by omega), if_neg (by simp only; omega)]
  have hseg : bitsSeg buf pos n = natBitsM n v := by
    have := bitsSeg_of_hasBits hbits
    rwa [natBitsM_length] at this
  rw [readBitsLoop_spec buf n pos 0 (by simpa using hbound) (Nat.pos_pow_of_pos _ (by omega)) h64]
  show (some (valMAux 0 (bitsSeg buf pos n)), _) = _
  rw [hseg]
  show (some (valM (natBitsM n v)), _) = _
  rw [valM_natBitsM]

/-! ## Write/read sequences (the §4.1 contract) -/

/-- Writing a sequence of `(value, width)` pairs in order. -/
def writeSeq (w : GorillaBitWriter) (ps : List (Nat × Nat)) : GorillaBitWriter :=
  ps.foldl (fun w p => write_bits w p.1 p.2) w

/-- Reading a sequence of widths in order, collecting the values;
fails if any single read fails. -/
def readSeq (r : GorillaBitReader) : List Nat → Option (List Nat)
  | [] => some []
  | n :: ns =>
    match read_bits r n with
    | (some v, r') =>
      match readSeq r' ns with
      | some vs => some (v :: vs)
      | none => none
    | (none, _) => none

/-- The concatenated bit image of a write sequence. -/
def chunksOf : List (Nat × Nat) → List Bool
  | [] => []
  | p :: ps => natBitsM p.2 p.1 ++ chunksOf ps

def SeqOK (ps : List (Nat × Nat)) : Prop :=
  ∀ p ∈ ps, 1 ≤ p.2 ∧ p.2 ≤ 64 ∧ p.1 < 2 ^ p.2

instance (ps : List (Nat × Nat)) : Decidable (SeqOK ps) :=
  inferInstanceAs (Decidable (∀ p ∈ ps, _ ∧ _ ∧ _))

theorem writeSeq_spec : ∀ (ps : List (Nat × Nat)) (w : GorillaBitWriter),
    (∀ p ∈ ps, 1 ≤ p.2 ∧ p.2 ≤ 64) → WWF w →
    WWF (writeSeq w ps) ∧
    (writeSeq w ps).bit_pos = w.bit_pos + (chunksOf ps).length ∧
    (∀ pos bs, HasBits w.buffer pos bs → pos + bs.length ≤ w.bit_pos →
      HasBits (writeSeq w ps).buffer pos bs) ∧
    HasBits (writeSeq w ps).buffer w.bit_pos (chunksOf ps) := by
  intro ps
  induction ps with
  | nil =>
    intro w _ hwf
    exact ⟨hwf, by simp [writeSeq, chunksOf], fun _ _ h _ => h, fun i hi => by
      simp [chunksOf] at hi⟩
  | cons p ps ih =>
    intro w hok hwf
    have hp := hok p (List.mem_cons_self p ps)
    obtain ⟨hwf1, hpos1, hpres1, hhas1⟩ := write_bits_spec hp.1 hp.2 hwf
    set w1 := write_bits w p.1 p.2 with hw1
    have hfold : writeSeq w (p :: ps) = writeSeq w1 ps := rfl
    obtain ⟨hwf2, hpos2, hpres2, hhas2⟩ :=
      ih w1 (fun q hq => hok q (List.mem_cons_of_mem p hq)) hwf1
    rw [hfold]
    have hlift : ∀ pos bs, HasBits w.buffer pos bs → pos + bs.length ≤ w.bit_pos →
        HasBits w1.buffer pos bs := by
      intro pos bs hh hb i hi
      rw [hpres1 (pos + i) (by omega)]
      exact hh i hi
    refine ⟨hwf2, ?_, ?_, ?_⟩
    · rw [hpos2, hpos1]
      simp [chunksOf, natBitsM_length]
      omega
    · intro pos bs hh hb
      exact hpres2 pos bs (hlift pos bs hh hb) (by omega)
    · show HasBits (writeSeq w1 ps).buffer w.bit_pos (natBitsM p.2 p.1 ++ chunksOf ps)
      apply HasBits.append
      · apply hpres2 _ _ hhas1
        rw [natBitsM_length]
        omega
      · rw [natBitsM_length]
        have : w.bit_pos + p.2 = w1.bit_pos := by omega
        rw [this]
        exact hhas2

/-- Any well-formed writer's buffer covers its bit position. -/
theorem WWF.bits_le {w : GorillaBitWriter} (h : WWF w) : w.bit_pos ≤ 8 * w.buffer.length := by
  obtain ⟨h1, _⟩ := h
  omega

theorem readSeq_spec : ∀ (ps : List (Nat × Nat)) (F : List Nat) (pos : Nat),
    SeqOK ps → HasBits F pos (chunksOf ps) → pos + (chunksOf ps).length ≤ 8 * F.length →
    readSeq ⟨F, pos⟩ (ps.map Prod.snd) = some (ps.map Prod.fst) := by
  intro ps
  induction ps with
  | nil =>
    intro F pos _ _ _
    simp [readSeq]
  | cons p ps ih =>
    intro F pos hok hhas hbound
    have hp := hok p (List.mem_cons_self p ps)
    have hch : chunksOf (p :: ps) = natBitsM p.2 p.1 ++ chunksOf ps := rfl
    rw [hch] at hhas hbound
    simp only [List.length_append, natBitsM_length] at hbound
    have hleft := HasBits.left hhas
    have hright := HasBits.right hhas
    rw [natBitsM_length] at hright
    have hread := read_bits_spec hp.1 hp.2.1 (by omega) hleft
    rw [Nat.mod_eq_of_lt hp.2.2] at hread
    show readSeq ⟨F, pos⟩ (p.2 :: ps.map Prod.snd) = _
    rw [readSeq, hread]
    have ihres := ih F (pos + p.2) (fun q hq => hok q (List.mem_cons_of_mem p hq)) hright
      (by omega)
    simp [ihres]

/-- Claim C7 auxiliary: the full write-then-read contract over fresh
writer/reader states. -/
theorem writeSeq_readSeq (ps : List (Nat × Nat)) (hok : SeqOK ps) :
    readSeq (GorillaBitReader.new (get_bytes (writeSeq GorillaBitWriter.new ps)))
      (ps.map Prod.snd) = some (ps.map Prod.fst) := by
  have hwide : ∀ p ∈ ps, 1 ≤ p.2 ∧ p.2 ≤ 64 := fun p hp => ⟨(hok p hp).1, (hok p hp).2.1⟩
  obtain ⟨hwf, hpos, _, hhas⟩ := writeSeq_spec ps GorillaBitWriter.new hwide WWF_new
  have hbound : 0 + (chunksOf ps).length ≤ 8 * (writeSeq GorillaBitWriter.new ps).buffer.length := by
    have hb := hwf.bits_le
    have h0 : (GorillaBitWriter.new).bit_pos = 0 := rfl
    rw [h0] at hpos
    omega
  exact readSeq_spec ps _ 0 hok hhas hbound

/-! ## Gorilla compressor (`GorillaCompressor`) -/

/-- `u64::leading_zeros`. -/
def leadingZeros64 (n : Nat) : Nat := 64 - Nat.size n

/-- Count-trailing-zeros with explicit fuel (64 suffices for `u64`). -/
def ctzAux : Nat → Nat → Nat
  | 0, _ => 0
  | fuel + 1, n => if n % 2 = 1 then 0 else ctzAux fuel (n / 2) + 1

/-- `u64::trailing_zeros`. -/
def trailingZeros64 (n : Nat) : Nat := if n = 0 then 64 else ctzAux 64 n

structure GorillaCompressor where
  writer : GorillaBitWriter
  prev_timestamp : Option Nat
  prev_delta : Option Int
  prev_value : Option Nat
  count : Nat
deriving Repr, DecidableEq

def GorillaCompressor.new : GorillaCompressor :=
  ⟨GorillaBitWriter.new, none, none, none, 0⟩

/-- `GorillaCompressor::compress_timestamp` (argument: the already-computed
wrapped delta). -/
def compress_timestamp (c : GorillaCompressor) (delta : Int) : GorillaCompressor :=
  match c.prev_delta with
  | none =>
    let clamped := max (-8191) (min 8191 delta)
    { c with
      writer := write_bits (write_bits c.writer 2 2) (toU64 clamped) 14,
      prev_delta := some delta }
  | some prev_delta =>
    let dod := wrapI64 (delta - prev_delta)
    if dod = 0 then
      { c with writer := write_bits c.writer 0 1, prev_delta := some delta }
    else if -63 ≤ dod ∧ dod ≤ 64 then
      let encoded := if dod < 0 then toU64 (wrapI64 (128 + dod)) else toU64 dod
      { c with
        writer := write_bits (write_bits c.writer 2 2) encoded 7,
        prev_delta := some delta }
    else
      let encoded := if dod < 0 then toU64 (wrapI64 (4096 + dod)) else toU64 dod
      { c with
        writer := write_bits (write_bits c.writer 3 2) encoded 12,
        prev_delta := some delta }

/-- `GorillaCompressor::compress_value` (`value` is the f64 bit pattern). -/
def compress_value (c : GorillaCompressor) (value : Nat) : GorillaCompressor :=
  match c.prev_value with
  | none => { c with writer := write_bits c.writer value 64 }
  | some prev_value =>
    let xorResult := value ^^^ prev_value
    if xorResult = 0 then
      { c with writer := write_bits c.writer 0 1 }
    else
      let w1 := write_bits c.writer 1 1
      let lz := leadingZeros64 xorResult
      let tz := trailingZeros64 xorResult
      let mb := 64 - lz - tz
      if 0 < mb ∧ mb ≤ 64 then
        let w2 := write_bits w1 (min lz 63) 6
        let w3 := write_bits w2 (min mb 64) 6
        let mv := xorResult >>> (min tz 63)
        { c with writer := write_bits w3 mv (min mb 64) }
      else
        { c with writer := write_bits (write_bits (write_bits w1 0 6) 64 6) value 64 }

/-- `GorillaCompressor::compress_datapoint`. -/
def compress_datapoint (c : GorillaCompressor) (timestamp value : Nat) : GorillaCompressor :=
  if c.count = 0 then
    { c with
      writer := write_bits (write_bits c.writer timestamp 64) value 64,
      prev_timestamp := some timestamp,
      prev_value := some value,
      count := 1 }
  else
    let prev_ts := c.prev_timestamp.getD 0
    let delta := wrapI64 (toI64 timestamp - toI64 prev_ts)
    let c1 := compress_timestamp c delta
    let c2 := compress_value c1 value
    { c2 with
      prev_timestamp := some timestamp,
      prev_value := some value,
      count := (c.count + 1) % 2 ^ 32 }

/-- `GorillaCompressor::finish`. -/
def finish (c : GorillaCompressor) : List Nat :=
  get_bytes (write_bits c.writer 255 8)

/-- Compress a whole list of `(timestamp, value-bits)` pairs from a fresh
compressor, ending with `finish`. -/
def compressList (ps : List (Nat × Nat)) : List Nat :=
  finish (ps.foldl (fun c p => compress_datapoint c p.1 p.2) GorillaCompressor.new)

/-! ## Gorilla decompressor (`GorillaDecompressor`) -/

structure GorillaDecompressor where
  reader : GorillaBitReader
  prev_timestamp : Option Nat
  prev_delta : Option Int
  prev_value : Option Nat
  finished : Bool
deriving Repr, DecidableEq

def GorillaDecompressor.new (data : List Nat) : GorillaDecompressor :=
  ⟨GorillaBitReader.new data, none, none, none, false⟩

/-- `GorillaDecompressor::decompress_timestamp`. -/
def decompress_timestamp (d : GorillaDecompressor) (prev_timestamp : Nat) :
    Option Nat × GorillaDecompressor :=
  match d.prev_delta with
  | none =>
    match read_bits d.reader 2 with
    | (none, r) => (none, { d with reader := r })
    | (some control_bits, r) =>
      if control_bits = 2 then
        match read_bits r 14 with
        | (none, r1) => (none, { d with reader := r1 })
        | (some delta, r1) =>
          let signed_delta : Int :=
            if (delta : Int) > 8191 then wrapI64 ((delta : Int) - 16384) else (delta : Int)
          (some (toU64 (wrapI64 (toI64 prev_timestamp + signed_delta))),
            { d with reader := r1, prev_delta := some signed_delta })
      else (none, { d with reader := r })
  | some prev_delta =>
    match read_bits d.reader 1 with
    | (none, r) => (none, { d with reader := r })
    | (some control_bit, r) =>
      if control_bit = 0 then
        (some (toU64 (wrapI64 (toI64 prev_timestamp + prev_delta))), { d with reader := r })
      else
        match read_bits r 1 with
        | (none, r1) => (none, { d with reader := r1 })
        | (some second_bit, r1) =>
          if second_bit = 0 then
            match read_bits r1 7 with
            | (none, r2) => (none, { d with reader := r2 })
            | (some value, r2) =>
              let dod : Int :=
                if (value : Int) > 63 then wrapI64 ((value : Int) - 128) else (value : Int)
              let new_delta := wrapI64 (prev_delta + dod)
              (some (toU64 (wrapI64 (toI64 prev_timestamp + new_delta))),
                { d with reader := r2, prev_delta := some new_delta })
          else
            match read_bits r1 12 with
            | (none, r2) => (none, { d with reader := r2 })
            | (some value, r2) =>
              let dod : Int :=
                if (value : Int) > 2047 then wrapI64 ((value : Int) - 4096) else (value : Int)
              let new_delta := wrapI64 (prev_delta + dod)
              (some (toU64 (wrapI64 (toI64 prev_timestamp + new_delta))),
                { d with reader := r2, prev_delta := some new_delta })

/-- `GorillaDecompressor::decompress_value` (result: f64 bit pattern). -/
def decompress_value (d : GorillaDecompressor) : Option Nat × GorillaDecompressor :=
  match d.prev_value with
  | none =>
    match read_bits d.reader 64 with
    | (none, r) => (none, { d with reader := r })
    | (some value_bits, r) => (some value_bits, { d with reader := r })
  | some prev_value =>
    match read_bits d.reader 1 with
    | (none, r) => (none, { d with reader := r })
    | (some control_bit, r) =>
      if control_bit = 0 then (some prev_value, { d with reader := r })
      else
        match read_bits r 6 with
        | (none, r1) => (none, { d with reader := r1 })
        | (some leading_zeros, r1) =>
          match read_bits r1 6 with
          | (none, r2) => (none, { d with reader := r2 })
          | (some meaningful_bits, r2) =>
            if meaningful_bits = 0 ∨ 64 < meaningful_bits then
              (some prev_value, { d with reader := r2 })
            else
              match read_bits r2 (min meaningful_bits 64) with
              | (none, r3) => (none, { d with reader := r3 })
              | (some meaningful_value, r3) =>
                let trailing_zeros := 64 - leading_zeros - meaningful_bits
                let xorResult := (meaningful_value <<< (min trailing_zeros 63)) % 2 ^ 64
                (some (prev_value ^^^ xorResult), { d with reader := r3 })

/-- `GorillaDecompressor::decompress_next`. -/
def decompress_next (d : GorillaDecompressor) : Option (Nat × Nat) × GorillaDecompressor :=
  if d.finished || !(has_more_data d.reader) then (none, d)
  else
    match d.prev_timestamp with
    | none =>
      match read_bits d.reader 64 with
      | (none, r) => (none, { d with reader := r })
      | (some timestamp, r) =>
        match read_bits r 64 with
        | (none, r1) => (none, { d with reader := r1 })
        | (some value_bits, r1) =>
          (some (timestamp, value_bits),
            { d with
              reader := r1,
              prev_timestamp := some timestamp,
              prev_value := some value_bits })
    | some prev_ts =>
      -- end-marker lookahead: read 8 bits; on 0xFF terminate, otherwise roll back
      let step : Option GorillaBitReader × GorillaDecompressor :=
        match read_bits d.reader 8 with
        | (some end_marker, r) =>
          if end_marker = 255 then (none, { d with reader := r, finished := true })
          else (some { r with bit_pos := r.bit_pos - 8 }, d)
        | (none, r) => (some r, d)
      match step with
      | (none, d') => (none, d')
      | (some r', _) =>
        let (tsRes, d2) := decompress_timestamp { d with reader := r' } prev_ts
        match tsRes with
        | none => (none, d2)
        | some timestamp =>
          let (vRes, d3) := decompress_value d2
          match vRes with
          | none => (none, d3)
          | some value =>
            (some (timestamp, value),
              { d3 with prev_timestamp := some timestamp, prev_value := some value })

/-- The `while let Some` loop of `decompress_all`, with fuel.  Every emitted
sample consumes at least two bits of the reader, so `8 * buffer length + 1`
steps of fuel are never exhausted before `decompress_next` returns `none`. -/
def decompressAllAux : GorillaDecompressor → Nat → List (Nat × Nat)
  | _, 0 => []
  | d, fuel + 1 =>
    match decompress_next d with
    | (none, _) => []
    | (some p, d') => p :: decompressAllAux d' fuel

/-- `GorillaDecompressor::decompress_all` over a byte buffer. -/
def decompress_all (data : List Nat) : List (Nat × Nat) :=
  decompressAllAux (GorillaDecompressor.new data) (8 * data.length + 1)

/-! ## Facts about leading/trailing zero counts -/

theorem ctzAux_spec : ∀ (fuel x : Nat), 0 < x → x < 2 ^ fuel →
    2 ^ ctzAux fuel x ∣ x ∧ (x / 2 ^ ctzAux fuel x) % 2 = 1 := by
  intro fuel
  induction fuel with
  | zero => intro x h1 h2; omega
  | succ fuel ih =>
    intro x h1 h2
    rcases Nat.mod_two_eq_zero_or_one x with he | ho
    · have hx2 : 0 < x / 2 := by omega
      have hx2' : x / 2 < 2 ^ fuel := by
        have : (2 : Nat) ^ (fuel + 1) = 2 ^ fuel * 2 := by ring
        omega
      obtain ⟨hdvd, hodd⟩ := ih (x / 2) hx2 hx2'
      set t := ctzAux fuel (x / 2) with ht
      have hx : x = 2 * (x / 2) := by omega
      have hstep : ctzAux (fuel + 1) x = t + 1 := by
        rw [ctzAux, if_neg (by omega)]
      rw [hstep]
      constructor
      · rw [pow_succ]
        obtain ⟨k, hk⟩ := hdvd
        have hxk : x = 2 ^ t * 2 * k := by
          calc x = 2 * (x / 2) := hx
            _ = 2 * (2 ^ t * k) := by rw [hk]
            _ = 2 ^ t * 2 * k := by ring
        exact ⟨k, hxk⟩
      · have hc : (2 : Nat) ^ (t + 1) = 2 * 2 ^ t := by ring
        rw [hc, ← Nat.div_div_eq_div_mul]
        exact hodd
    · have hstep : ctzAux (fuel + 1) x = 0 := by
        rw [ctzAux, if_pos ho]
      rw [hstep]
      simpa using ho

theorem trailingZeros64_spec {x : Nat} (h1 : 0 < x) (h2 : x < 2 ^ 64) :
    2 ^ trailingZeros64 x ∣ x ∧ (x / 2 ^ trailingZeros64 x) % 2 = 1 := by
  rw [trailingZeros64, if_neg (by omega)]
  exact ctzAux_spec 64 x h1 h2

/-- `tz < size x` for nonzero `x`. -/
theorem trailingZeros64_lt_size {x : Nat} (h1 : 0 < x) (h2 : x < 2 ^ 64) :
    trailingZeros64 x < Nat.size x := by
  obtain ⟨hdvd, _⟩ := trailingZeros64_spec h1 h2
  have hle : 2 ^ trailingZeros64 x ≤ x := Nat.le_of_dvd h1 hdvd
  rw [Nat.lt_size]
  exact hle

theorem size_le_64 {x : Nat} (h2 : x < 2 ^ 64) : Nat.size x ≤ 64 :=
  Nat.size_le.mpr h2

/-- The three derived quantities of the value encoder, for nonzero xor. -/
theorem xor_encode_facts {x : Nat} (h1 : 0 < x) (h2 : x < 2 ^ 64) :
    let lz := leadingZeros64 x
    let tz := trailingZeros64 x
    let mb := 64 - lz - tz
    lz ≤ 63 ∧ tz ≤ 63 ∧ 1 ≤ mb ∧ mb ≤ 64 ∧ mb = Nat.size x - tz ∧
      x >>> tz < 2 ^ mb ∧ (x >>> tz) <<< tz = x ∧ 64 - lz - mb = tz := by
  intro lz tz mb
  have hsz : 0 < Nat.size x := Nat.size_pos.mpr h1
  have hsz64 : Nat.size x ≤ 64 := size_le_64 h2
  have htz : tz < Nat.size x := trailingZeros64_lt_size h1 h2
  have hlz : lz = 64 - Nat.size x := rfl
  have hmb : mb = Nat.size x - tz := by
    show 64 - lz - tz = _
    omega
  obtain ⟨hdvd, _⟩ := trailingZeros64_spec h1 h2
  have hshr : x >>> tz = x / 2 ^ tz := Nat.shiftRight_eq_div_pow x tz
  have hrt : (x >>> tz) <<< tz = x := by
    rw [hshr, Nat.shiftLeft_eq]
    exact Nat.div_mul_cancel hdvd
  have hlt : x >>> tz < 2 ^ mb := by
    rw [hshr, hmb]
    have hx : x < 2 ^ Nat.size x := Nat.lt_size_self x
    rw [Nat.div_lt_iff_lt_mul (Nat.pos_pow_of_pos tz (by omega))]
    calc x < 2 ^ Nat.size x := hx
      _ = 2 ^ (Nat.size x - tz) * 2 ^ tz := by
        rw [← pow_add]
        congr 1
        omega
  exact ⟨by omega, by omega, by omega, by omega, hmb, hlt, hrt, by omega⟩

/-! ## Bit images of the codec's per-sample output -/

/-- The bit string emitted by `compress_timestamp` for a given previous-delta
state and wrapped delta. -/
def tsChunk (pd : Option Int) (delta : Int) : List Bool :=
  match pd with
  | none => natBitsM 2 2 ++ natBitsM 14 (toU64 (max (-8191) (min 8191 delta)))
  | some pd =>
    let dod := wrapI64 (delta - pd)
    if dod = 0 then natBitsM 1 0
    else if -63 ≤ dod ∧ dod ≤ 64 then
      natBitsM 2 2 ++ natBitsM 7 (if dod < 0 then toU64 (wrapI64 (128 + dod)) else toU64 dod)
    else
      natBitsM 2 3 ++ natBitsM 12 (if dod < 0 then toU64 (wrapI64 (4096 + dod)) else toU64 dod)

/-- The bit string emitted by `compress_value` for previous value bits `pv`
and current value bits `v`. -/
def valChunk (pv v : Nat) : List Bool :=
  let x := v ^^^ pv
  if x = 0 then natBitsM 1 0
  else
    let lz := leadingZeros64 x
    let tz := trailingZeros64 x
    let mb := 64 - lz - tz
    if 0 < mb ∧ mb ≤ 64 then
      natBitsM 1 1 ++ natBitsM 6 (min lz 63) ++ natBitsM 6 (min mb 64) ++
        natBitsM (min mb 64) (x >>> min tz 63)
    else
      natBitsM 1 1 ++ natBitsM 6 0 ++ natBitsM 6 64 ++ natBitsM 64 v

/-- The bit image of compressing a tail of samples, threading the
compressor's `(prev_timestamp, prev_delta, prev_value)` state. -/
def chunksFrom (pt : Nat) (pd : Option Int) (pv : Nat) : List (Nat × Nat) → List Bool
  | [] => []
  | (t, v) :: rest =>
    tsChunk pd (deltaOf pt t) ++ valChunk pv v ++
      chunksFrom t (some (deltaOf pt t)) v rest

/-- Emission lemma for `compress_timestamp`. -/
theorem compress_timestamp_emit (c : GorillaCompressor) (delta : Int)
    (hwf : WWF c.writer) :
    WWF (compress_timestamp c delta).writer ∧
    (compress_timestamp c delta).writer.bit_pos =
      c.writer.bit_pos + (tsChunk c.prev_delta delta).length ∧
    (∀ pos bs, HasBits c.writer.buffer pos bs → pos + bs.length ≤ c.writer.bit_pos →
      HasBits (compress_timestamp c delta).writer.buffer pos bs) ∧
    HasBits (compress_timestamp c delta).writer.buffer c.writer.bit_pos
      (tsChunk c.prev_delta delta) ∧
    (compress_timestamp c delta).prev_delta = some delta ∧
    (compress_timestamp c delta).prev_timestamp = c.prev_timestamp ∧
    (compress_timestamp c delta).prev_value = c.prev_value ∧
    (compress_timestamp c delta).count = c.count := by
  match hpd : c.prev_delta with
  | none =>
    have hct : compress_timestamp c delta =
        { c with
          writer := writeSeq c.writer [(2, 2), (toU64 (max (-8191) (min 8191 delta)), 14)],
          prev_delta := some delta } := by
      rw [compress_timestamp, hpd]
      rfl
    have hch : tsChunk none delta =
        chunksOf [(2, 2), (toU64 (max (-8191) (min 8191 delta)), 14)] := by
      show _ = natBitsM 2 2 ++ (natBitsM 14 _ ++ [])
      rw [List.append_nil]
      rfl
    obtain ⟨h1, h2, h3, h4⟩ := writeSeq_spec
      [(2, 2), (toU64 (max (-8191) (min 8191 delta)), 14)] c.writer
      (by intro p hp; simp at hp; rcases hp with h | h <;> simp [h]) hwf
    rw [hct, hch]
    exact ⟨h1, h2, h3, h4, rfl, rfl, rfl, rfl⟩
  | some pd =>
    rcases eq_or_ne (wrapI64 (delta - pd)) 0 with hz | hz
    · have hct : compress_timestamp c delta =
          { c with writer := writeSeq c.writer [(0, 1)], prev_delta := some delta } := by
        rw [compress_timestamp, hpd]
        simp only [hz, if_pos rfl]
        rfl
      have hch : tsChunk (some pd) delta = chunksOf [(0, 1)] := by
        show tsChunk (some pd) delta = natBitsM 1 0 ++ []
        rw [List.append_nil]
        simp only [tsChunk]
        rw [if_pos hz]
      obtain ⟨h1, h2, h3, h4⟩ := writeSeq_spec [(0, 1)] c.writer
        (by intro p hp; simp at hp; simp [hp]) hwf
      rw [hct, hch]
      exact ⟨h1, h2, h3, h4, rfl, rfl, rfl, rfl⟩
    · rcases Classical.em (-63 ≤ wrapI64 (delta - pd) ∧ wrapI64 (delta - pd) ≤ 64) with hs | hs
      · set dod := wrapI64 (delta - pd) with hdod
        set e := if dod < 0 then toU64 (wrapI64 (128 + dod)) else toU64 dod with he
        have hct : compress_timestamp c delta =
            { c with writer := writeSeq c.writer [(2, 2), (e, 7)], prev_delta := some delta } := by
          rw [compress_timestamp, hpd]
          simp only [← hdod, ← he]
          rw [if_neg hz, if_pos hs]
          rfl
        have hch : tsChunk (some pd) delta = chunksOf [(2, 2), (e, 7)] := by
          simp only [tsChunk, ← hdod, ← he]
          rw [if_neg hz, if_pos hs]
          show _ = natBitsM 2 2 ++ (natBitsM 7 e ++ [])
          rw [List.append_nil]
        obtain ⟨h1, h2, h3, h4⟩ := writeSeq_spec [(2, 2), (e, 7)] c.writer
          (by intro p hp; simp at hp; rcases hp with h | h <;> simp [h]) hwf
        rw [hct, hch]
        exact ⟨h1, h2, h3, h4, rfl, rfl, rfl, rfl⟩
      · set dod := wrapI64 (delta - pd) with hdod
        set e := if dod < 0 then toU64 (wrapI64 (4096 + dod)) else toU64 dod with he
        have hct : compress_timestamp c delta =
            { c with writer := writeSeq c.writer [(3, 2), (e, 12)], prev_delta := some delta } := by
          rw [compress_timestamp, hpd]
          simp only [← hdod, ← he]
          rw [if_neg hz, if_neg hs]
          rfl
        have hch : tsChunk (some pd) delta = chunksOf [(3, 2), (e, 12)] := by
          simp only [tsChunk, ← hdod, ← he]
          rw [if_neg hz, if_neg hs]
          show _ = natBitsM 2 3 ++ (natBitsM 12 e ++ [])
          rw [List.append_nil]
        obtain ⟨h1, h2, h3, h4⟩ := writeSeq_spec [(3, 2), (e, 12)] c.writer
          (by intro p hp; simp at hp; rcases hp with h | h <;> simp [h]) hwf
        rw [hct, hch]
        exact ⟨h1, h2, h3, h4, rfl, rfl, rfl, rfl⟩

/-- Emission lemma for `compress_value` when a previous value exists. -/
theorem compress_value_emit (c : GorillaCompressor) (v pv : Nat)
    (hv64 : v < 2 ^ 64) (hpv64 : pv < 2 ^ 64)
    (hpv : c.prev_value = some pv) (hwf : WWF c.writer) :
    WWF (compress_value c v).writer ∧
    (compress_value c v).writer.bit_pos = c.writer.bit_pos + (valChunk pv v).length ∧
    (∀ pos bs, HasBits c.writer.buffer pos bs → pos + bs.length ≤ c.writer.bit_pos →
      HasBits (compress_value c v).writer.buffer pos bs) ∧
    HasBits (compress_value c v).writer.buffer c.writer.bit_pos (valChunk pv v) ∧
    (compress_value c v).prev_delta = c.prev_delta ∧
    (compress_value c v).prev_timestamp = c.prev_timestamp ∧
    (compress_value c v).prev_value = c.prev_value ∧
    (compress_value c v).count = c.count := by
  rcases eq_or_ne (v ^^^ pv) 0 with hx | hx
  · have hcv : compress_value c v = { c with writer := writeSeq c.writer [(0, 1)] } := by
      rw [compress_value, hpv]
      simp only [hx, if_pos rfl]
      rfl
    have hch : valChunk pv v = chunksOf [(0, 1)] := by
      show valChunk pv v = natBitsM 1 0 ++ []
      rw [List.append_nil]
      simp only [valChunk]
      rw [if_pos hx]
    obtain ⟨h1, h2, h3, h4⟩ := writeSeq_spec [(0, 1)] c.writer
      (by intro p hp; simp at hp; simp [hp]) hwf
    rw [hcv, hch]
    exact ⟨h1, h2, h3, h4, rfl, rfl, rfl, rfl⟩
  · have hxlt : v ^^^ pv < 2 ^ 64 := Nat.xor_lt_two_pow hv64 hpv64
    obtain ⟨hlz63, htz63, hmb1, hmb64, _, _, _, _⟩ :=
      xor_encode_facts (Nat.pos_of_ne_zero hx) hxlt
    have hguard : 0 < 64 - leadingZeros64 (v ^^^ pv) - trailingZeros64 (v ^^^ pv) ∧
        64 - leadingZeros64 (v ^^^ pv) - trailingZeros64 (v ^^^ pv) ≤ 64 := ⟨hmb1, hmb64⟩
    set lz := leadingZeros64 (v ^^^ pv) with hlzd
    set tz := trailingZeros64 (v ^^^ pv) with htzd
    set mb := 64 - lz - tz with hmbd
    set L : List (Nat × Nat) :=
      [(1, 1), (min lz 63, 6), (min mb 64, 6), ((v ^^^ pv) >>> min tz 63, min mb 64)] with hL
    have hcv : compress_value c v = { c with writer := writeSeq c.writer L } := by
      rw [compress_value, hpv]
      simp only [← hlzd, ← htzd, ← hmbd]
      rw [if_neg hx, if_pos hguard]
      rfl
    have hch : valChunk pv v = chunksOf L := by
      simp only [valChunk, ← hlzd, ← htzd, ← hmbd]
      rw [if_neg hx, if_pos hguard]
      show _ = natBitsM 1 1 ++ (natBitsM 6 (min lz 63) ++ (natBitsM 6 (min mb 64) ++
        (natBitsM (min mb 64) ((v ^^^ pv) >>> min tz 63) ++ [])))
      rw [List.append_nil]
      simp [List.append_assoc]
    have hok : ∀ p ∈ L, 1 ≤ p.2 ∧ p.2 ≤ 64 := by
      intro p hp
      rw [hL] at hp
      simp only [List.mem_cons, List.not_mem_nil, or_false] at hp
      rcases hp with h | h | h | h <;> subst h <;> dsimp only <;> omega
    obtain ⟨h1, h2, h3, h4⟩ := writeSeq_spec L c.writer hok hwf
    rw [hcv, hch]
    exact ⟨h1, h2, h3, h4, rfl, rfl, rfl, rfl⟩

/-- Emission lemma for `compress_datapoint` in the streaming state
(`count ≠ 0`): one timestamp chunk followed by one value chunk. -/
theorem compress_datapoint_emit (c : GorillaCompressor) (t v pt pv : Nat)
    (hv64 : v < 2 ^ 64) (hpv64 : pv < 2 ^ 64)
    (hcount : c.count ≠ 0) (hpt : c.prev_timestamp = some pt)
    (hpv : c.prev_value = some pv) (hwf : WWF c.writer) :
    WWF (compress_datapoint c t v).writer ∧
    (compress_datapoint c t v).writer.bit_pos =
      c.writer.bit_pos + (tsChunk c.prev_delta (deltaOf pt t) ++ valChunk pv v).length ∧
    (∀ pos bs, HasBits c.writer.buffer pos bs → pos + bs.length ≤ c.writer.bit_pos →
      HasBits (compress_datapoint c t v).writer.buffer pos bs) ∧
    HasBits (compress_datapoint c t v).writer.buffer c.writer.bit_pos
      (tsChunk c.prev_delta (deltaOf pt t) ++ valChunk pv v) ∧
    (compress_datapoint c t v).prev_timestamp = some t ∧
    (compress_datapoint c t v).prev_delta = some (deltaOf pt t) ∧
    (compress_datapoint c t v).prev_value = some v ∧
    (compress_datapoint c t v).count = (c.count + 1) % 2 ^ 32 := by
  have hcd : compress_datapoint c t v =
      { compress_value (compress_timestamp c (deltaOf pt t)) v with
        prev_timestamp := some t,
        prev_value := some v,
        count := (c.count + 1) % 2 ^ 32 } := by
    rw [compress_datapoint, if_neg hcount, hpt]
    rfl
  obtain ⟨ta, tb, tc, td, te, tf, tg, th⟩ := compress_timestamp_emit c (deltaOf pt t) hwf
  set c1 := compress_timestamp c (deltaOf pt t) with hc1
  have hpv1 : c1.prev_value = some pv := by rw [tg, hpv]
  obtain ⟨va, vb, vc, vd, ve, vf, vg, vh⟩ := compress_value_emit c1 v pv hv64 hpv64 hpv1 ta
  rw [hcd]
  refine ⟨va, ?_, ?_, ?_, rfl, ?_, rfl, rfl⟩
  · show (compress_value c1 v).writer.bit_pos = _
    rw [vb, tb]
    simp [List.length_append]
    omega
  · intro pos bs hh hb
    show HasBits (compress_value c1 v).writer.buffer pos bs
    exact vc pos bs (tc pos bs hh hb) (by omega)
  · show HasBits (compress_value c1 v).writer.buffer c.writer.bit_pos _
    apply HasBits.append
    · exact vc _ _ td (by omega)
    · rw [← tb]
      exact vd
  · show (compress_value c1 v).prev_delta = some (deltaOf pt t)
    rw [ve, te]

theorem chunksFrom_cons (pt : Nat) (pd : Option Int) (pv : Nat) (t v : Nat)
    (rest : List (Nat × Nat)) :
    chunksFrom pt pd pv ((t, v) :: rest) =
      (tsChunk pd (deltaOf pt t) ++ valChunk pv v) ++
        chunksFrom t (some (deltaOf pt t)) v rest := by
  simp [chunksFrom, List.append_assoc]

/-- Compressing a tail of samples appends exactly `chunksFrom` to the
writer's bit stream and threads the compressor state. -/
theorem encAux : ∀ (rest : List (Nat × Nat)) (c : GorillaCompressor) (pt pv : Nat),
    (∀ p ∈ rest, p.2 < 2 ^ 64) → pv < 2 ^ 64 →
    c.count ≠ 0 → c.count + rest.length < 2 ^ 32 →
    c.prev_timestamp = some pt → c.prev_value = some pv → WWF c.writer →
    WWF (rest.foldl (fun c p => compress_datapoint c p.1 p.2) c).writer ∧
    (rest.foldl (fun c p => compress_datapoint c p.1 p.2) c).writer.bit_pos =
      c.writer.bit_pos + (chunksFrom pt c.prev_delta pv rest).length ∧
    (∀ pos bs, HasBits c.writer.buffer pos bs → pos + bs.length ≤ c.writer.bit_pos →
      HasBits (rest.foldl (fun c p => compress_datapoint c p.1 p.2) c).writer.buffer pos bs) ∧
    HasBits (rest.foldl (fun c p => compress_datapoint c p.1 p.2) c).writer.buffer
      c.writer.bit_pos (chunksFrom pt c.prev_delta pv rest) := by
  intro rest
  induction rest with
  | nil =>
    intro c pt pv _ _ _ _ _ _ hwf
    exact ⟨hwf, by simp [chunksFrom], fun _ _ h _ => h, fun i hi => by simp [chunksFrom] at hi⟩
  | cons p rest ih =>
    intro c pt pv hv64s hpv64 hcount hbound hpt hpv hwf
    obtain ⟨t, v⟩ := p
    have hv64 : v < 2 ^ 64 := hv64s (t, v) (List.mem_cons_self _ _)
    obtain ⟨ea, eb, ec, ed, ee, ef, eg, eh⟩ :=
      compress_datapoint_emit c t v pt pv hv64 hpv64 hcount hpt hpv hwf
    set c1 := compress_datapoint c t v with hc1
    have hfold : ((t, v) :: rest).foldl (fun c p => compress_datapoint c p.1 p.2) c =
        rest.foldl (fun c p => compress_datapoint c p.1 p.2) c1 := rfl
    have hcnt1 : c1.count = c.count + 1 := by
      rw [eh, Nat.mod_eq_of_lt (by simp at hbound; omega)]
    obtain ⟨ia, ib, ic, id'⟩ := ih c1 t v
      (fun q hq => hv64s q (List.mem_cons_of_mem _ hq)) hv64
      (by omega) (by simp at hbound; omega) ee eg ea
    rw [hfold, chunksFrom_cons]
    set ch := tsChunk c.prev_delta (deltaOf pt t) ++ valChunk pv v with hch
    have hpdrw : c1.prev_delta = some (deltaOf pt t) := ef
    rw [← hpdrw]
    refine ⟨ia, ?_, ?_, ?_⟩
    · rw [ib, eb]
      simp only [List.length_append]
      omega
    · intro pos bs hh hb
      exact ic pos bs (ec pos bs hh hb) (by omega)
    · apply HasBits.append
      · exact ic _ _ ed (by omega)
      · rw [← eb]
        exact id'

/-- The byte buffer produced by compressing `(t0, v0) :: rest` carries the
two 64-bit headers, the per-sample chunks, and the `0xFF` end marker. -/
theorem compressList_spec (t0 v0 : Nat) (rest : List (Nat × Nat))
    (_ht0 : t0 < 2 ^ 64) (hv0 : v0 < 2 ^ 64) (hv : ∀ p ∈ rest, p.2 < 2 ^ 64)
    (hlen : rest.length + 2 ≤ 2 ^ 32) :
    HasBits (compressList ((t0, v0) :: rest)) 0
      (natBitsM 64 t0 ++ (natBitsM 64 v0 ++ (chunksFrom t0 none v0 rest ++ natBitsM 8 255))) ∧
    128 + (chunksFrom t0 none v0 rest).length + 8 ≤ 8 * (compressList ((t0, v0) :: rest)).length := by
  have hc0 : compress_datapoint GorillaCompressor.new t0 v0 =
      { writer := writeSeq GorillaBitWriter.new [(t0, 64), (v0, 64)],
        prev_timestamp := some t0,
        prev_delta := none,
        prev_value := some v0,
        count := 1 } := rfl
  obtain ⟨wa, wb, _, wd⟩ := writeSeq_spec [(t0, 64), (v0, 64)] GorillaBitWriter.new
    (by intro p hp; simp at hp; rcases hp with h | h <;> simp [h]) WWF_new
  set c0 := compress_datapoint GorillaCompressor.new t0 v0 with hc0d
  have hwf0 : WWF c0.writer := by rw [hc0]; exact wa
  have hpos0 : c0.writer.bit_pos = 128 := by
    rw [hc0]
    show (writeSeq GorillaBitWriter.new [(t0, 64), (v0, 64)]).bit_pos = 128
    rw [wb]
    rfl
  have hhd : HasBits c0.writer.buffer 0 (natBitsM 64 t0 ++ (natBitsM 64 v0 ++ [])) := by
    rw [hc0]
    exact wd
  obtain ⟨fa, fb, fc, fd⟩ := encAux rest c0 t0 v0 hv hv0
    (by rw [hc0]; show (1 : Nat) ≠ 0; omega)
    (by rw [hc0]; show 1 + rest.length < 2 ^ 32; omega)
    (by rw [hc0]) (by rw [hc0]) hwf0
  set cF := rest.foldl (fun c p => compress_datapoint c p.1 p.2) c0 with hcF
  have hpd0 : c0.prev_delta = none := by rw [hc0]
  rw [hpd0] at fb fd
  -- the final `finish` appends the 0xFF marker
  obtain ⟨ga, gb, gc, gd⟩ := @write_bits_spec cF.writer 255 8 (by omega) (by omega) fa
  have hfin : compressList ((t0, v0) :: rest) = (write_bits cF.writer 255 8).buffer := rfl
  have hlift : ∀ pos bs, HasBits cF.writer.buffer pos bs →
      pos + bs.length ≤ cF.writer.bit_pos →
      HasBits (write_bits cF.writer 255 8).buffer pos bs := by
    intro pos bs hh hb i hi
    rw [gc (pos + i) (by omega)]
    exact hh i hi
  have hA : HasBits c0.writer.buffer 0 (natBitsM 64 t0) := HasBits.left hhd
  have hB : HasBits c0.writer.buffer 64 (natBitsM 64 v0) := by
    have h1 := HasBits.right hhd
    rw [natBitsM_length] at h1
    have h2 := HasBits.left h1
    simpa using h2
  have hposF : cF.writer.bit_pos = 128 + (chunksFrom t0 none v0 rest).length := by
    rw [fb, hpos0]
  have hA' : HasBits (write_bits cF.writer 255 8).buffer 0 (natBitsM 64 t0) := by
    apply hlift
    · exact fc 0 _ hA (by rw [natBitsM_length, hpos0]; omega)
    · rw [natBitsM_length]; omega
  have hB' : HasBits (write_bits cF.writer 255 8).buffer 64 (natBitsM 64 v0) := by
    apply hlift
    · exact fc 64 _ hB (by rw [natBitsM_length, hpos0])
    · rw [natBitsM_length]; omega
  have hC' : HasBits (write_bits cF.writer 255 8).buffer 128 (chunksFrom t0 none v0 rest) := by
    apply hlift
    · rw [← hpos0]; exact fd
    · omega
  have hM' : HasBits (write_bits cF.writer 255 8).buffer
      (128 + (chunksFrom t0 none v0 rest).length) (natBitsM 8 255) := by
    rw [← hposF]
    exact gd
  constructor
  · rw [hfin]
    apply HasBits.append hA'
    rw [natBitsM_length]
    apply HasBits.append hB'
    rw [natBitsM_length]
    show HasBits _ 128 _
    apply HasBits.append hC'
    exact hM'
  · rw [hfin]
    have hble := ga.bits_le
    omega

/-! ## Decoder step lemmas -/

/-- Reading a single bit. -/
theorem read_one_bit {F : List Nat} {pos : Nat} (b : Bool)
    (hbit : bitAt F pos = b) (hb : pos + 1 ≤ 8 * F.length) :
    read_bits ⟨F, pos⟩ 1 = (some (if b then 1 else 0), ⟨F, pos + 1⟩) := by
  have hv : (if b then (1 : Nat) else 0) < 2 := by split <;> omega
  have hhas : HasBits F pos (natBitsM 1 (if b then 1 else 0)) := by
    intro i hi
    rw [natBitsM_length] at hi
    have hi0 : i = 0 := by omega
    subst hi0
    rw [natBitsM_getD (by omega)]
    simp only [Nat.add_zero, Nat.sub_self]
    rw [hbit]
    rcases b with _ | _ <;> simp
  have := read_bits_spec (by omega) (by omega) (by omega) hhas
  rwa [Nat.mod_eq_of_lt (by omega)] at this

/-- Reading a chunk written as `natBitsM n v` with `v < 2 ^ n` gives back `v`. -/
theorem read_chunk {F : List Nat} {pos n v : Nat} (h1 : 1 ≤ n) (h64 : n ≤ 64)
    (hv : v < 2 ^ n) (hhas : HasBits F pos (natBitsM n v))
    (hb : pos + n ≤ 8 * F.length) :
    read_bits ⟨F, pos⟩ n = (some v, ⟨F, pos + n⟩) := by
  have := read_bits_spec h1 h64 hb hhas
  rwa [Nat.mod_eq_of_lt hv] at this

/-- `testBit 63 = false` forces a `u64` below `2 ^ 63`. -/
theorem lt_two_pow_63_of_testBit {x : Nat} (h64 : x < 2 ^ 64)
    (hbit : x.testBit 63 = false) : x < 2 ^ 63 := by
  by_contra hge
  obtain ⟨i, hige, hit⟩ := Nat.ge_two_pow_implies_high_bit_true
    (show x ≥ 2 ^ 63 by omega)
  have hlt : i < 64 := by
    by_contra hge'
    have := Nat.testBit_implies_ge hit
    have : (2 : Nat) ^ 64 ≤ 2 ^ i := Nat.pow_le_pow_right (by omega) (by omega)
    omega
  have : i = 63 := by omega
  subst this
  rw [hit] at hbit
  cases hbit

/-- The value decoder inverts the value encoder chunk. -/
theorem decompress_value_spec (d : GorillaDecompressor) (F : List Nat) (pos : Nat)
    (pv v : Nat) (hv64 : v < 2 ^ 64) (hpv64 : pv < 2 ^ 64)
    (hr : d.reader = ⟨F, pos⟩) (hpv : d.prev_value = some pv)
    (hval : v ^^^ pv = 0 ∨ ¬((v ^^^ pv).testBit 63 ∧ (v ^^^ pv).testBit 0))
    (hhas : HasBits F pos (valChunk pv v))
    (hbound : pos + (valChunk pv v).length ≤ 8 * F.length) :
    decompress_value d = (some v, { d with reader := ⟨F, pos + (valChunk pv v).length⟩ }) := by
  rcases eq_or_ne (v ^^^ pv) 0 with hx | hx
  · have hvpv : v = pv := Nat.xor_eq_zero.mp hx
    have hch : valChunk pv v = natBitsM 1 0 := by
      simp only [valChunk]
      rw [if_pos hx]
    rw [hch] at hhas hbound
    have hbit : bitAt F pos = false := by
      have := hhas 0 (by simp)
      rw [natBitsM_getD (by omega)] at this
      simpa using this
    have hread := read_one_bit false hbit (by simp at hbound; omega)
    rw [decompress_value, hpv, hr, hread]
    simp only [if_pos rfl]
    rw [hch, hvpv]
    rfl
  · have hxlt : v ^^^ pv < 2 ^ 64 := Nat.xor_lt_two_pow hv64 hpv64
    have hxpos : 0 < v ^^^ pv := Nat.pos_of_ne_zero hx
    obtain ⟨hlz63, htz63, hmb1, hmb64, hmbsz, hmvlt, hrt, htzeq⟩ := xor_encode_facts hxpos hxlt
    set x := v ^^^ pv with hxd
    set lz := leadingZeros64 x with hlzd
    set tz := trailingZeros64 x with htzd
    set mb := 64 - lz - tz with hmbd
    -- the `ValGood` condition forces `mb ≤ 63`
    have hmb63 : mb ≤ 63 := by
      rcases hval with h | h
      · exact absurd h hx
      · rcases Classical.em (x.testBit 63 = true) with h63 | h63
        · have h0 : x.testBit 0 = false := by
            rcases Classical.em (x.testBit 0 = true) with h0 | h0
            · exact absurd ⟨h63, h0⟩ h
            · simpa using h0
          -- x is even, so tz ≥ 1
          obtain ⟨_, hodd⟩ := trailingZeros64_spec hxpos hxlt
          have hxeven : x % 2 = 0 := by
            have := Nat.testBit_zero x
            rw [h0] at this
            rcases Nat.mod_two_eq_zero_or_one x with he | ho
            · exact he
            · rw [ho] at this; simp at this
          have htz1 : 1 ≤ tz := by
            by_contra htz0
            have : tz = 0 := by omega
            rw [← htzd, this] at hodd
            simp at hodd
            omega
          omega
        · have h63' : x.testBit 63 = false := by simpa using h63
          have hx63 : x < 2 ^ 63 := lt_two_pow_63_of_testBit hxlt h63'
          have hsz : Nat.size x ≤ 63 := Nat.size_le.mpr hx63
          have : 1 ≤ lz := by
            rw [hlzd]
            show 1 ≤ 64 - Nat.size x
            omega
          omega
    have hminlz : min lz 63 = lz := by omega
    have hminmb : min mb 64 = mb := by omega
    have hmintz : min tz 63 = tz := by omega
    have hch : valChunk pv v = natBitsM 1 1 ++ natBitsM 6 lz ++ natBitsM 6 mb ++
        natBitsM mb (x >>> tz) := by
      simp only [valChunk, ← hxd, ← hlzd, ← htzd, ← hmbd]
      rw [if_neg hx, if_pos ⟨hmb1, hmb64⟩, hminlz, hminmb, hmintz]
    rw [hch] at hhas hbound
    simp only [List.append_assoc, List.length_append, natBitsM_length] at hhas hbound
    have h1 := HasBits.left hhas
    have h2' := HasBits.right hhas
    rw [natBitsM_length] at h2'
    have h2 := HasBits.left h2'
    have h3' := HasBits.right h2'
    rw [natBitsM_length] at h3'
    have h3 := HasBits.left h3'
    have h4 := HasBits.right h3'
    rw [natBitsM_length] at h4
    -- the four reads
    have hbit1 : bitAt F pos = true := by
      have := h1 0 (by simp)
      rw [natBitsM_getD (by omega)] at this
      simpa using this
    have hread1 := read_one_bit true hbit1 (by omega)
    have hread1' : read_bits ⟨F, pos⟩ 1 = (some 1, ⟨F, pos + 1⟩) := by
      simpa using hread1
    have hread2 := @read_chunk F (pos + 1) 6 lz (by omega) (by omega) (by omega) h2 (by omega)
    have hread3 := @read_chunk F (pos + 1 + 6) 6 mb (by omega) (by omega) (by omega) h3
      (by omega)
    have hread4 := @read_chunk F (pos + 1 + 6 + 6) mb (x >>> tz) hmb1 (by omega) hmvlt h4
      (by omega)
    have hg : ¬ (mb = 0 ∨ 64 < mb) := by omega
    have hxrec : ((x >>> tz) <<< min (64 - lz - mb) 63) % 2 ^ 64 = x := by
      rw [htzeq, hmintz, hrt]
      exact Nat.mod_eq_of_lt hxlt
    have hres : pv ^^^ x = v := by
      rw [hxd, Nat.xor_comm v pv, ← Nat.xor_assoc]
      simp
    rw [decompress_value, hpv, hr]
    simp only [hread1', hread2, hread3, hread4, hminmb, hg, if_false,
      if_neg (by omega : ¬ (1 : Nat) = 0), hxrec, hres]
    have hlen' : (valChunk pv v).length = 1 + (6 + (6 + mb)) := by
      rw [hch]
      simp [List.append_assoc]
    rw [hlen', show pos + (1 + (6 + (6 + mb))) = pos + 1 + 6 + 6 + mb from by omega]

theorem wrapI64_congr {x y : Int} (h : x % 2 ^ 64 = y % 2 ^ 64) :
    wrapI64 x = wrapI64 y := by
  unfold wrapI64
  omega

theorem wrapI64_add_wrapI64 (a b : Int) : wrapI64 (a + wrapI64 b) = wrapI64 (a + b) := by
  apply wrapI64_congr
  have := wrapI64_emod b
  omega

/-- Casting the truncated-read value back to `Int`: reading the low `k ≤ 64`
bits of a `u64` cast is reduction mod `2 ^ k`. -/
theorem toU64_mod_cast (x : Int) (k : Nat) (hk : k ≤ 64) :
    ((toU64 x % 2 ^ k : Nat) : Int) = x % (2 ^ k : Int) := by
  have h1 : ((toU64 x : Nat) : Int) = x % 2 ^ 64 := by
    unfold toU64
    rw [Int.toNat_of_nonneg (Int.emod_nonneg x (by norm_num))]
  have hdvd : ((2 ^ k : Nat) : Int) ∣ (2 ^ 64 : Int) := by
    push_cast
    exact pow_dvd_pow 2 hk
  calc ((toU64 x % 2 ^ k : Nat) : Int) = (toU64 x : Int) % ((2 ^ k : Nat) : Int) := by
        push_cast
        ring_nf
    _ = (x % 2 ^ 64) % ((2 ^ k : Nat) : Int) := by rw [h1]
    _ = x % ((2 ^ k : Nat) : Int) := Int.emod_emod_of_dvd x hdvd
    _ = x % (2 ^ k : Int) := by push_cast; ring_nf

theorem toU64_of_nonneg {x : Int} (h0 : 0 ≤ x) (h1 : x < 2 ^ 64) :
    ((toU64 x : Nat) : Int) = x := by
  unfold toU64
  rw [Int.emod_eq_of_lt h0 h1, Int.toNat_of_nonneg h0]

/-- Goodness condition on one timestamp chunk (what the decoder can invert). -/
def TsGood (pd : Option Int) (delta : Int) : Prop :=
  match pd with
  | none => -8191 ≤ delta ∧ delta ≤ 8191
  | some pd =>
    -2048 ≤ wrapI64 (delta - pd) ∧ wrapI64 (delta - pd) ≤ 2047 ∧ wrapI64 (delta - pd) ≠ 64

/-- The timestamp decoder inverts the timestamp encoder chunk. -/
theorem decompress_timestamp_spec (d : GorillaDecompressor) (F : List Nat) (pos : Nat)
    (pt : Nat) (pd : Option Int) (delta : Int)
    (hr : d.reader = ⟨F, pos⟩) (hpd : d.prev_delta = pd)
    (hdl : -2 ^ 63 ≤ delta) (hdu : delta < 2 ^ 63)
    (hpdok : ∀ p, pd = some p → -2 ^ 63 ≤ p ∧ p < 2 ^ 63)
    (hgood : TsGood pd delta)
    (hhas : HasBits F pos (tsChunk pd delta))
    (hbound : pos + (tsChunk pd delta).length ≤ 8 * F.length) :
    decompress_timestamp d pt =
      (some (toU64 (toI64 pt + delta)),
        { d with reader := ⟨F, pos + (tsChunk pd delta).length⟩, prev_delta := some delta }) := by
  match pd with
  | none =>
    obtain ⟨hg1, hg2⟩ := hgood
    have hclamp : max (-8191) (min 8191 delta) = delta := by omega
    have hch : tsChunk none delta = natBitsM 2 2 ++ natBitsM 14 (toU64 delta) := by
      simp only [tsChunk]
      rw [hclamp]
    rw [hch] at hhas hbound ⊢
    simp only [List.length_append, natBitsM_length] at hbound ⊢
    have h1 := HasBits.left hhas
    have h2 := HasBits.right hhas
    rw [natBitsM_length] at h2
    have hread1 := @read_chunk F pos 2 2 (by omega) (by omega) (by omega) h1 (by omega)
    -- the 14-bit field reads back `toU64 delta % 2 ^ 14`
    have hread2 := @read_bits_spec F (pos + 2) 14 (toU64 delta) (by omega) (by omega)
      (by omega) h2
    have hcast : ((toU64 delta % 2 ^ 14 : Nat) : Int) = delta % (2 ^ 14 : Int) :=
      toU64_mod_cast delta 14 (by omega)
    have hsd : (if ((toU64 delta % 2 ^ 14 : Nat) : Int) > 8191 then
        wrapI64 (((toU64 delta % 2 ^ 14 : Nat) : Int) - 16384)
        else ((toU64 delta % 2 ^ 14 : Nat) : Int)) = delta := by
      rcases le_or_lt 0 delta with hge | hlt
      · have he : delta % (2 ^ 14 : Int) = delta := Int.emod_eq_of_lt hge (by omega)
        rw [hcast, he, if_neg (by omega)]
      · have he : delta % (2 ^ 14 : Int) = delta + 16384 := by omega
        rw [hcast, he, if_pos (by omega)]
        rw [show delta + 16384 - 16384 = delta from by omega]
        exact wrapI64_eq_self (by omega) (by omega)
    rw [decompress_timestamp, hpd, hr]
    simp only [hread1, hread2, eq_self_iff_true, if_true, hsd, toU64_wrapI64]
  | some pdv =>
    obtain ⟨hpdl, hpdu⟩ := hpdok pdv rfl
    obtain ⟨hg1, hg2, hg3⟩ := hgood
    have hwl := wrapI64_lb (delta - pdv)
    have hwu := wrapI64_ub (delta - pdv)
    rcases eq_or_ne (wrapI64 (delta - pdv)) 0 with hz | hz
    · -- dod = 0: single control bit, delta unchanged
      have hde : delta = pdv := by
        have hmod := wrapI64_emod (delta - pdv)
        rw [hz] at hmod
        omega
      have hch : tsChunk (some pdv) delta = natBitsM 1 0 := by
        simp only [tsChunk]
        rw [if_pos hz]
      rw [hch] at hhas hbound ⊢
      simp only [natBitsM_length] at hbound ⊢
      have hbit : bitAt F pos = false := by
        have := hhas 0 (by simp)
        rw [natBitsM_getD (by omega)] at this
        simpa using this
      have hread1 := read_one_bit false hbit (by omega)
      have hread1' : read_bits ⟨F, pos⟩ 1 = (some 0, ⟨F, pos + 1⟩) := by
        simpa using hread1
      rw [decompress_timestamp, hpd, hr]
      simp only [hread1', eq_self_iff_true, if_true, toU64_wrapI64]
      rw [hde, ← hpd]
    · rcases Classical.em (-63 ≤ wrapI64 (delta - pdv) ∧ wrapI64 (delta - pdv) ≤ 64)
        with hs | hs
      · -- the 7-bit branch
        set dod := wrapI64 (delta - pdv) with hdodd
        have hdne : dod ≠ 64 := hg3
        set e := if dod < 0 then toU64 (wrapI64 (128 + dod)) else toU64 dod with hed
        have hch : tsChunk (some pdv) delta = natBitsM 2 2 ++ natBitsM 7 e := by
          simp only [tsChunk, ← hdodd, ← hed]
          rw [if_neg hz, if_pos hs]
        have hei : (e : Int) = if dod < 0 then 128 + dod else dod := by
          rw [hed]
          rcases lt_or_ge dod 0 with hneg | hpos
          · rw [if_pos hneg, if_pos hneg,
              wrapI64_eq_self (by omega) (by omega)]
            exact toU64_of_nonneg (by omega) (by omega)
          · rw [if_neg (by omega), if_neg (by omega)]
            exact toU64_of_nonneg (by omega) (by omega)
        have helt : e < 2 ^ 7 := by
          have h0 : (0 : Int) ≤ (e : Int) := by positivity
          rcases lt_or_ge dod 0 with hneg | hpos
          · rw [if_pos hneg] at hei
            omega
          · rw [if_neg (by omega)] at hei
            omega
        rw [hch] at hhas hbound ⊢
        simp only [List.length_append, natBitsM_length] at hbound ⊢
        have h1 := HasBits.left hhas
        have h2 := HasBits.right hhas
        rw [natBitsM_length] at h2
        have hb0 : bitAt F pos = true := by
          have := h1 0 (by simp)
          rw [natBitsM_getD (by omega)] at this
          simp only [Nat.add_zero] at this
          rw [this]
          decide
        have hb1 : bitAt F (pos + 1) = false := by
          have := h1 1 (by simp)
          rw [natBitsM_getD (by omega)] at this
          rw [this]
          decide
        have hread1 := read_one_bit true hb0 (by omega)
        have hread1' : read_bits ⟨F, pos⟩ 1 = (some 1, ⟨F, pos + 1⟩) := by
          simpa using hread1
        have hread2 := read_one_bit false hb1 (by omega)
        have hread2' : read_bits ⟨F, pos + 1⟩ 1 = (some 0, ⟨F, pos + 1 + 1⟩) := by
          simpa using hread2
        have hread3 := @read_chunk F (pos + 1 + 1) 7 e (by omega) (by omega) helt
          (by rw [show pos + 1 + 1 = pos + 2 from by omega]; exact h2) (by omega)
        have hdod' : (if (e : Int) > 63 then wrapI64 ((e : Int) - 128) else (e : Int))
            = dod := by
          rcases lt_or_ge dod 0 with hneg | hpos
          · rw [if_pos hneg] at hei
            rw [hei, if_pos (by omega),
              show (128 : Int) + dod - 128 = dod from by omega]
            exact wrapI64_eq_self (by omega) (by omega)
          · rw [if_neg (by omega)] at hei
            rw [hei, if_neg (by omega)]
        have hnd : wrapI64 (pdv + dod) = delta := by
          rw [hdodd, wrapI64_add_wrapI64,
            show pdv + (delta - pdv) = delta from by omega]
          exact wrapI64_eq_self hdl hdu
        have hne10 : ((1 : Nat) = 0) = False := by simp
        rw [decompress_timestamp, hpd, hr]
        simp only [hread1', hread2', hread3, hne10, if_false, eq_self_iff_true, if_true,
          hdod', hnd, toU64_wrapI64]
      · -- the 12-bit branch
        set dod := wrapI64 (delta - pdv) with hdodd
        set e := if dod < 0 then toU64 (wrapI64 (4096 + dod)) else toU64 dod with hed
        have hch : tsChunk (some pdv) delta = natBitsM 2 3 ++ natBitsM 12 e := by
          simp only [tsChunk, ← hdodd, ← hed]
          rw [if_neg hz, if_neg hs]
        have hei : (e : Int) = if dod < 0 then 4096 + dod else dod := by
          rw [hed]
          rcases lt_or_ge dod 0 with hneg | hpos
          · rw [if_pos hneg, if_pos hneg,
              wrapI64_eq_self (by omega) (by omega)]
            exact toU64_of_nonneg (by omega) (by omega)
          · rw [if_neg (by omega), if_neg (by omega)]
            exact toU64_of_nonneg (by omega) (by omega)
        have helt : e < 2 ^ 12 := by
          have h0 : (0 : Int) ≤ (e : Int) := by positivity
          rcases lt_or_ge dod 0 with hneg | hpos
          · rw [if_pos hneg] at hei
            omega
          · rw [if_neg (by omega)] at hei
            omega
        rw [hch] at hhas hbound ⊢
        simp only [List.length_append, natBitsM_length] at hbound ⊢
        have h1 := HasBits.left hhas
        have h2 := HasBits.right hhas
        rw [natBitsM_length] at h2
        have hb0 : bitAt F pos = true := by
          have := h1 0 (by simp)
          rw [natBitsM_getD (by omega)] at this
          simp only [Nat.add_zero] at this
          rw [this]
          decide
        have hb1 : bitAt F (pos + 1) = true := by
          have := h1 1 (by simp)
          rw [natBitsM_getD (by omega)] at this
          rw [this]
          decide
        have hread1 := read_one_bit true hb0 (by omega)
        have hread1' : read_bits ⟨F, pos⟩ 1 = (some 1, ⟨F, pos + 1⟩) := by
          simpa using hread1
        have hread2 := read_one_bit true hb1 (by omega)
        have hread2' : read_bits ⟨F, pos + 1⟩ 1 = (some 1, ⟨F, pos + 1 + 1⟩) := by
          simpa using hread2
        have hread3 := @read_chunk F (pos + 1 + 1) 12 e (by omega) (by omega) helt
          (by rw [show pos + 1 + 1 = pos + 2 from by omega]; exact h2) (by omega)
        have hdod' : (if (e : Int) > 2047 then wrapI64 ((e : Int) - 4096) else (e : Int))
            = dod := by
          rcases lt_or_ge dod 0 with hneg | hpos
          · rw [if_pos hneg] at hei
            rw [hei, if_pos (by omega),
              show (4096 : Int) + dod - 4096 = dod from by omega]
            exact wrapI64_eq_self (by omega) (by omega)
          · rw [if_neg (by omega)] at hei
            rw [hei, if_neg (by omega)]
        have hnd : wrapI64 (pdv + dod) = delta := by
          rw [hdodd, wrapI64_add_wrapI64,
            show pdv + (delta - pdv) = delta from by omega]
          exact wrapI64_eq_self hdl hdu
        have hne10 : ((1 : Nat) = 0) = False := by simp
        rw [decompress_timestamp, hpd, hr]
        simp only [hread1', hread2', hread3, hne10, if_false, hdod', hnd, toU64_wrapI64]

/-! ## The end-marker lookahead -/

theorem read_bits_8 (F : List Nat) (pos : Nat) (h : pos + 8 ≤ 8 * F.length) :
    read_bits ⟨F, pos⟩ 8 = (some (valM (bitsSeg F pos 8)), ⟨F, pos + 8⟩) := by
  rw [read_bits, if_neg (by omega), if_neg (by simp only; omega)]
  rw [readBitsLoop_spec F 8 pos 0 (by omega) (Nat.pos_pow_of_pos _ (by omega)) (by omega)]
  rfl

theorem natBitsM_mod (n x : Nat) : natBitsM n (x % 2 ^ n) = natBitsM n x := by
  unfold natBitsM
  apply List.map_congr_left
  intro i hi
  rw [List.mem_range] at hi
  rw [Nat.testBit_mod_two_pow]
  have : n - 1 - i < n := by omega
  simp [this]

/-- `natBitsM` is a left inverse of `valM`: the bit string is recovered from
its numeric value. -/
theorem natBitsM_valM : ∀ (bs : List Bool), natBitsM bs.length (valM bs) = bs := by
  intro bs
  induction bs with
  | nil => rfl
  | cons b bs ih =>
    show natBitsM (bs.length + 1) (valM (b :: bs)) = b :: bs
    rw [natBitsM_succ, valM_cons]
    have hlt := valM_lt bs
    have hmod : ((if b then 1 else 0) * 2 ^ bs.length + valM bs) % 2 ^ bs.length
        = valM bs := by
      rw [Nat.mul_comm, Nat.mul_add_mod]
      exact Nat.mod_eq_of_lt hlt
    have htail : natBitsM bs.length ((if b then 1 else 0) * 2 ^ bs.length + valM bs) = bs := by
      rw [← natBitsM_mod, hmod, ih]
    have hhead : Nat.testBit ((if b then 1 else 0) * 2 ^ bs.length + valM bs) bs.length
        = b := by
      rcases b with _ | _
      · simpa using Nat.testBit_lt_two_pow hlt
      · have hone : ((if (true : Bool) = true then (1 : Nat) else 0) * 2 ^ bs.length
            + valM bs) = 2 ^ bs.length + valM bs := by simp
        rw [hone, Nat.testBit_two_pow_add_eq, Nat.testBit_lt_two_pow hlt]
        rfl
    rw [htail, hhead]

theorem bitsSeg_length (buf : List Nat) (pos n : Nat) : (bitsSeg buf pos n).length = n := by
  simp [bitsSeg]

theorem bitsSeg_getD {buf : List Nat} {pos n i : Nat} (h : i < n) :
    (bitsSeg buf pos n).getD i false = bitAt buf (pos + i) := by
  simp [bitsSeg, List.getD_eq_getElem?_getD, List.getElem?_map, List.getElem?_range h]

/-- A byte value of 63 in six bits is the only one with all bits set. -/
theorem six_ones (q : Nat) (hq : q < 64) (h : ∀ j, j < 6 → q.testBit j = true) :
    q = 63 := by
  revert h
  revert hq
  revert q
  decide

/-- At a good sample boundary the 8-bit lookahead never reads `0xFF`. -/
theorem lookahead_ne_marker (F : List Nat) (pos : Nat) (pd : Option Int) (delta : Int)
    (hgood : TsGood pd delta)
    (hm64 : ∀ p, pd = some p → wrapI64 (delta - p) ≠ -64)
    (hhas : HasBits F pos (tsChunk pd delta))
    (_hbound : pos + 8 ≤ 8 * F.length) :
    valM (bitsSeg F pos 8) ≠ 255 := by
  intro hb
  have hlen : (bitsSeg F pos 8).length = 8 := bitsSeg_length F pos 8
  have hinv := natBitsM_valM (bitsSeg F pos 8)
  rw [hlen, hb] at hinv
  have hall : ∀ i, i < 8 → bitAt F (pos + i) = true := by
    intro i hi
    rw [← bitsSeg_getD hi, ← hinv, natBitsM_getD hi]
    rw [show (255 : Nat) = 2 ^ 8 - 1 from rfl, Nat.testBit_two_pow_sub_one]
    simp only [decide_eq_true_eq]
    omega
  match pd with
  | none =>
    have h1 := HasBits.left hhas
    have hbit := h1 1 (by simp)
    rw [natBitsM_getD (by omega)] at hbit
    rw [hall 1 (by omega)] at hbit
    simp at hbit
  | some pdv =>
    obtain ⟨hg1, hg2, _⟩ := hgood
    have hne64 := hm64 pdv rfl
    rcases eq_or_ne (wrapI64 (delta - pdv)) 0 with hz | hz
    · have hch : tsChunk (some pdv) delta = natBitsM 1 0 := by
        simp only [tsChunk]
        rw [if_pos hz]
      rw [hch] at hhas
      have hbit := hhas 0 (by simp)
      rw [natBitsM_getD (by omega)] at hbit
      rw [hall 0 (by omega)] at hbit
      simp at hbit
    · rcases Classical.em (-63 ≤ wrapI64 (delta - pdv) ∧ wrapI64 (delta - pdv) ≤ 64)
        with hs | hs
      · have hch : tsChunk (some pdv) delta = natBitsM 2 2 ++
            natBitsM 7 (if wrapI64 (delta - pdv) < 0
              then toU64 (wrapI64 (128 + wrapI64 (delta - pdv)))
              else toU64 (wrapI64 (delta - pdv))) := by
          simp only [tsChunk]
          rw [if_neg hz, if_pos hs]
        rw [hch] at hhas
        have h1 := HasBits.left hhas
        have hbit := h1 1 (by simp)
        rw [natBitsM_getD (by omega)] at hbit
        rw [hall 1 (by omega)] at hbit
        simp at hbit
      · set dod := wrapI64 (delta - pdv) with hdodd
        set e := if dod < 0 then toU64 (wrapI64 (4096 + dod)) else toU64 dod with hed
        have hch : tsChunk (some pdv) delta = natBitsM 2 3 ++ natBitsM 12 e := by
          simp only [tsChunk, ← hdodd, ← hed]
          rw [if_neg hz, if_neg hs]
        have hei : (e : Int) = if dod < 0 then 4096 + dod else dod := by
          rw [hed]
          rcases lt_or_ge dod 0 with hneg | hpos
          · rw [if_pos hneg, if_pos hneg, wrapI64_eq_self (by omega) (by omega)]
            exact toU64_of_nonneg (by omega) (by omega)
          · rw [if_neg (by omega), if_neg (by omega)]
            exact toU64_of_nonneg (by omega) (by omega)
        have hebound : e ≤ 4031 ∧ e < 2 ^ 12 := by
          have h0 : (0 : Int) ≤ (e : Int) := by positivity
          rcases lt_or_ge dod 0 with hneg | hpos
          · rw [if_pos hneg] at hei
            constructor <;> omega
          · rw [if_neg (by omega)] at hei
            constructor <;> omega
        rw [hch] at hhas
        have h2 := HasBits.right hhas
        rw [natBitsM_length] at h2
        have hbits : ∀ k, 6 ≤ k → k ≤ 11 → e.testBit k = true := by
          intro k hk1 hk2
          have hbit := h2 (11 - k) (by simp; omega)
          rw [natBitsM_getD (by omega)] at hbit
          rw [show 12 - 1 - (11 - k) = k from by omega] at hbit
          rw [show pos + 2 + (11 - k) = pos + (2 + (11 - k)) from by omega] at hbit
          rw [hall (2 + (11 - k)) (by omega)] at hbit
          exact hbit.symm
        have hq : e >>> 6 = 63 := by
          apply six_ones
          · rw [Nat.shiftRight_eq_div_pow]
            have : e < 2 ^ 12 := hebound.2
            omega
          · intro j hj
            rw [Nat.testBit_shiftRight]
            exact hbits (6 + j) (by omega) (by omega)
        have hge : 4032 ≤ e := by
          have h1 : e >>> 6 = e / 64 := Nat.shiftRight_eq_div_pow e 6
          rw [h1] at hq
          omega
        omega

/-- Goodness condition on one value chunk: the xor either vanishes or does
not span all 64 bits (which would desynchronise the decoder). -/
def ValGood (pv v : Nat) : Prop :=
  v ^^^ pv = 0 ∨ ¬((v ^^^ pv).testBit 63 ∧ (v ^^^ pv).testBit 0)

theorem tsChunk_length_pos (pd : Option Int) (delta : Int) :
    1 ≤ (tsChunk pd delta).length := by
  match pd with
  | none => simp [tsChunk]
  | some pdv =>
    simp only [tsChunk]
    split
    · simp
    · split <;> simp

theorem valChunk_length_pos (pv v : Nat) : 1 ≤ (valChunk pv v).length := by
  simp only [valChunk]
  split
  · simp
  · split <;> simp

/-- One full mid-stream decoding step: at a good sample boundary
`decompress_next` emits exactly the encoded sample and advances past its
chunk. -/
theorem decompress_next_step (d : GorillaDecompressor) (F : List Nat) (pos : Nat)
    (pt pv : Nat) (pd : Option Int) (t v : Nat)
    (hr : d.reader = ⟨F, pos⟩) (hpt : d.prev_timestamp = some pt)
    (hpd : d.prev_delta = pd) (hpv : d.prev_value = some pv) (hfin : d.finished = false)
    (hpt64 : pt < 2 ^ 64) (ht64 : t < 2 ^ 64) (hv64 : v < 2 ^ 64) (hpv64 : pv < 2 ^ 64)
    (hpdok : ∀ p, pd = some p → -2 ^ 63 ≤ p ∧ p < 2 ^ 63)
    (hts : TsGood pd (deltaOf pt t))
    (hm64 : ∀ p, pd = some p → wrapI64 (deltaOf pt t - p) ≠ -64)
    (hval : ValGood pv v)
    (hhas : HasBits F pos (tsChunk pd (deltaOf pt t) ++ valChunk pv v))
    (hbound : pos + (tsChunk pd (deltaOf pt t) ++ valChunk pv v).length + 8 ≤ 8 * F.length) :
    decompress_next d = (some (t, v),
      { d with
        reader := ⟨F, pos + (tsChunk pd (deltaOf pt t) ++ valChunk pv v).length⟩,
        prev_timestamp := some t,
        prev_delta := some (deltaOf pt t),
        prev_value := some v }) := by
  have htlen : 1 ≤ (tsChunk pd (deltaOf pt t)).length := tsChunk_length_pos pd _
  have hvlen : 1 ≤ (valChunk pv v).length := valChunk_length_pos pv v
  simp only [List.length_append] at hbound
  have hmore : has_more_data ⟨F, pos⟩ = true := by
    simp only [has_more_data, decide_eq_true_eq]
    omega
  have hread8 := read_bits_8 F pos (by omega)
  have hne := lookahead_ne_marker F pos pd (deltaOf pt t) hts hm64
    (HasBits.left hhas) (by omega)
  have htshas := HasBits.left hhas
  have hvhas := HasBits.right hhas
  -- timestamp decode on the rolled-back reader
  have htsdec := decompress_timestamp_spec
    ⟨⟨F, pos⟩, some pt, d.prev_delta, d.prev_value, false⟩ F pos pt pd
    (deltaOf pt t) rfl hpd (wrapI64_lb _) (wrapI64_ub _) hpdok hts htshas (by omega)
  have hvdec := decompress_value_spec
    ⟨⟨F, pos + (tsChunk pd (deltaOf pt t)).length⟩, some pt, some (deltaOf pt t),
      d.prev_value, false⟩
    F (pos + (tsChunk pd (deltaOf pt t)).length) pv v hv64 hpv64 rfl hpv hval
    hvhas (by omega)
  rw [decompress_next, hfin, hr, hmore]
  simp only [Bool.false_or, Bool.not_true, if_neg (by simp : ¬ (false : Bool) = true)]
  rw [hpt]
  simp only [hread8, if_neg hne]
  rw [show pos + 8 - 8 = pos from by omega]
  have hrback : ({ (⟨F, pos + 8⟩ : GorillaBitReader) with bit_pos := pos } :
      GorillaBitReader) = ⟨F, pos⟩ := rfl
  rw [hrback]
  simp only [htsdec, hvdec]
  rw [toU64_add_deltaOf hpt64 ht64]
  simp only [List.length_append]
  rw [show pos + (tsChunk pd (deltaOf pt t)).length + (valChunk pv v).length =
    pos + ((tsChunk pd (deltaOf pt t)).length + (valChunk pv v).length) from by omega]

/-- At the end marker, `decompress_next` terminates the stream. -/
theorem decompress_next_marker (d : GorillaDecompressor) (F : List Nat) (pos pt : Nat)
    (hr : d.reader = ⟨F, pos⟩) (hpt : d.prev_timestamp = some pt)
    (hfin : d.finished = false)
    (hhas : HasBits F pos (natBitsM 8 255)) (hbound : pos + 8 ≤ 8 * F.length) :
    (decompress_next d).1 = none := by
  have hmore : has_more_data ⟨F, pos⟩ = true := by
    simp only [has_more_data, decide_eq_true_eq]
    omega
  have hread8 := @read_chunk F pos 8 255 (by omega) (by omega) (by omega) hhas (by omega)
  rw [decompress_next, hfin, hr, hmore]
  simp only [Bool.false_or, Bool.not_true, if_neg (by simp : ¬ (false : Bool) = true)]
  rw [hpt]
  simp [hread8]

/-- The delta-of-delta of this sample does not collide with the `0xFF`
end marker (the `dod = -64` pattern). -/
def NoMarkerClash (pd : Option Int) (delta : Int) : Prop :=
  match pd with
  | none => True
  | some p => wrapI64 (delta - p) ≠ -64

instance (pd : Option Int) (delta : Int) : Decidable (NoMarkerClash pd delta) :=
  match pd with
  | none => inferInstanceAs (Decidable True)
  | some _ => inferInstanceAs (Decidable (_ ≠ _))

theorem NoMarkerClash.elim' {pd : Option Int} {delta : Int} (h : NoMarkerClash pd delta) :
    ∀ p, pd = some p → wrapI64 (delta - p) ≠ -64 := by
  intro p hp
  subst hp
  exact h

instance (pd : Option Int) (delta : Int) : Decidable (TsGood pd delta) :=
  match pd with
  | none => inferInstanceAs (Decidable (_ ∧ _))
  | some _ => inferInstanceAs (Decidable (_ ∧ _ ∧ _))

instance (pv v : Nat) : Decidable (ValGood pv v) :=
  inferInstanceAs (Decidable (_ ∨ _))

/-- Goodness of a whole encoded tail, threading the codec state. -/
def goodTail : Nat → Option Int → Nat → List (Nat × Nat) → Prop
  | _, _, _, [] => True
  | pt, pd, pv, (t, v) :: rest =>
      TsGood pd (deltaOf pt t) ∧
      NoMarkerClash pd (deltaOf pt t) ∧
      ValGood pv v ∧
      goodTail t (some (deltaOf pt t)) v rest

instance goodTailDecI : ∀ (pt : Nat) (pd : Option Int) (pv : Nat)
    (rest : List (Nat × Nat)), Decidable (goodTail pt pd pv rest)
  | _, _, _, [] => Decidable.isTrue trivial
  | pt, pd, pv, (t, v) :: rest =>
    haveI : Decidable (goodTail t (some (deltaOf pt t)) v rest) :=
      goodTailDecI t (some (deltaOf pt t)) v rest
    inferInstanceAs (Decidable (_ ∧ _ ∧ _ ∧ _))

theorem chunksFrom_length_ge (rest : List (Nat × Nat)) : ∀ (pt : Nat) (pd : Option Int)
    (pv : Nat), rest.length ≤ (chunksFrom pt pd pv rest).length := by
  induction rest with
  | nil => intro pt pd pv; simp [chunksFrom]
  | cons p rest ih =>
    intro pt pd pv
    obtain ⟨t, v⟩ := p
    have h1 := tsChunk_length_pos pd (deltaOf pt t)
    have h2 := valChunk_length_pos pv v
    have h3 := ih t (some (deltaOf pt t)) v
    simp only [chunksFrom, List.length_append, List.length_cons]
    omega

/-- The decode loop inverts the encoded tail up to the end marker. -/
theorem decAux : ∀ (rest : List (Nat × Nat)) (F : List Nat) (pos pt pv : Nat)
    (pd : Option Int) (fuel : Nat),
    pt < 2 ^ 64 → pv < 2 ^ 64 → (∀ p ∈ rest, p.1 < 2 ^ 64 ∧ p.2 < 2 ^ 64) →
    (∀ p, pd = some p → -2 ^ 63 ≤ p ∧ p < 2 ^ 63) →
    goodTail pt pd pv rest →
    HasBits F pos (chunksFrom pt pd pv rest ++ natBitsM 8 255) →
    pos + (chunksFrom pt pd pv rest).length + 8 ≤ 8 * F.length →
    rest.length + 1 ≤ fuel →
    decompressAllAux ⟨⟨F, pos⟩, some pt, pd, some pv, false⟩ fuel = rest := by
  intro rest
  induction rest with
  | nil =>
    intro F pos pt pv pd fuel hpt64 hpv64 _ _ _ hhas hbound hfuel
    match fuel with
    | f + 1 =>
      have hhas' : HasBits F pos (natBitsM 8 255) := by
        have : chunksFrom pt pd pv [] ++ natBitsM 8 255 = natBitsM 8 255 := by
          simp [chunksFrom]
        rwa [this] at hhas
      have hmark := decompress_next_marker ⟨⟨F, pos⟩, some pt, pd, some pv, false⟩
        F pos pt rfl rfl rfl hhas' (by simp [chunksFrom] at hbound; omega)
      rw [decompressAllAux]
      rcases hnext : decompress_next ⟨⟨F, pos⟩, some pt, pd, some pv, false⟩ with ⟨res, d'⟩
      rw [hnext] at hmark
      simp only at hmark
      rw [hmark]
  | cons p rest ih =>
    intro F pos pt pv pd fuel hpt64 hpv64 h64 hpdok hgood hhas hbound hfuel
    obtain ⟨t, v⟩ := p
    obtain ⟨hts, hm64, hval, htail⟩ := hgood
    have ht64 : t < 2 ^ 64 := (h64 (t, v) (List.mem_cons_self _ _)).1
    have hv64 : v < 2 ^ 64 := (h64 (t, v) (List.mem_cons_self _ _)).2
    rw [chunksFrom_cons] at hhas hbound
    rw [List.append_assoc] at hhas
    have hstep := decompress_next_step ⟨⟨F, pos⟩, some pt, pd, some pv, false⟩
      F pos pt pv pd t v rfl rfl rfl rfl rfl hpt64 ht64 hv64 hpv64 hpdok hts
      (NoMarkerClash.elim' hm64) hval
      (HasBits.left hhas)
      (by simp only [List.length_append] at hbound ⊢; omega)
    match fuel with
    | f + 1 =>
      rw [decompressAllAux]
      simp only [hstep]
      have hrec := ih F (pos + (tsChunk pd (deltaOf pt t) ++ valChunk pv v).length) t v
        (some (deltaOf pt t)) f ht64 hv64
        (fun q hq => h64 q (List.mem_cons_of_mem _ hq))
        (by
          intro q hq
          rw [Option.some_inj] at hq
          subst hq
          exact ⟨wrapI64_lb _, wrapI64_ub _⟩)
        htail
        (HasBits.right hhas)
        (by simp only [List.length_append] at hbound ⊢; omega)
        (by simp at hfuel; omega)
      rw [hrec]

/-- Goodness of a whole sample sequence (hypotheses under which the codec
is lossless). -/
def GoodSeq : List (Nat × Nat) → Prop
  | [] => True
  | (t0, v0) :: rest => goodTail t0 none v0 rest

/-- Round trip of the Gorilla codec on good sequences. -/
theorem decompress_compress (S : List (Nat × Nat))
    (h64 : ∀ p ∈ S, p.1 < 2 ^ 64 ∧ p.2 < 2 ^ 64)
    (hlen : S.length + 1 ≤ 2 ^ 32)
    (hgood : GoodSeq S) :
    decompress_all (compressList S) = S := by
  match S with
  | [] => rfl
  | (t0, v0) :: rest =>
    obtain ⟨ht0, hv0⟩ := h64 (t0, v0) (List.mem_cons_self _ _)
    obtain ⟨hhas, hbound⟩ := compressList_spec t0 v0 rest ht0 hv0
      (fun p hp => (h64 p (List.mem_cons_of_mem _ hp)).2)
      (by simp at hlen ⊢; omega)
    set F := compressList ((t0, v0) :: rest) with hF
    have hCge := chunksFrom_length_ge rest t0 none v0
    have hA := HasBits.left hhas
    have hrest1 := HasBits.right hhas
    rw [natBitsM_length] at hrest1
    have hB := HasBits.left hrest1
    have hCM := HasBits.right hrest1
    rw [natBitsM_length] at hCM
    have hmore : has_more_data ⟨F, 0⟩ = true := by
      simp only [has_more_data, decide_eq_true_eq]
      omega
    have hr1 := @read_chunk F 0 64 t0 (by omega) (by omega) ht0 hA (by omega)
    have hr2 := @read_chunk F (0 + 64) 64 v0 (by omega) (by omega) hv0 hB (by omega)
    have hstep1 : decompress_next ⟨⟨F, 0⟩, none, none, none, false⟩ =
        (some (t0, v0), ⟨⟨F, 0 + 64 + 64⟩, some t0, none, some v0, false⟩) := by
      rw [decompress_next]
      simp only [Bool.false_or, hmore, Bool.not_true,
        if_neg (by simp : ¬ (false : Bool) = true)]
      simp only [hr1, hr2]
    show decompressAllAux ⟨⟨F, 0⟩, none, none, none, false⟩ (8 * F.length + 1) =
      (t0, v0) :: rest
    rw [decompressAllAux]
    simp only [hstep1]
    have hdec := decAux rest F (0 + 64 + 64) t0 v0 none (8 * F.length) ht0 hv0
      (fun q hq => h64 q (List.mem_cons_of_mem _ hq))
      (by intro p hp; cases hp)
      hgood hCM
      (by omega)
      (by omega)
    rw [hdec]

instance goodSeqDecI : ∀ (S : List (Nat × Nat)), Decidable (GoodSeq S)
  | [] => Decidable.isTrue trivial
  | (t0, v0) :: rest => inferInstanceAs (Decidable (goodTail t0 none v0 rest))

/-- The 14-bit window for the first stored delta. -/
def GapTsFit (pd : Option Int) (delta : Int) : Prop :=
  match pd with
  | none => -8191 ≤ delta ∧ delta ≤ 8191
  | some p => -2048 ≤ wrapI64 (delta - p) ∧ wrapI64 (delta - p) ≤ 2047

instance (pd : Option Int) (delta : Int) : Decidable (GapTsFit pd delta) :=
  match pd with
  | none => inferInstanceAs (Decidable (_ ∧ _))
  | some _ => inferInstanceAs (Decidable (_ ∧ _))

/-- The timestamp-gap condition of the claim as stated: every stored delta
fits its window and every delta-of-delta lies in the 12-bit window. -/
def gapsTail : Nat → Option Int → List (Nat × Nat) → Prop
  | _, _, [] => True
  | pt, pd, (t, _) :: rest =>
      GapTsFit pd (deltaOf pt t) ∧ gapsTail t (some (deltaOf pt t)) rest

instance gapsTailDecI : ∀ (pt : Nat) (pd : Option Int) (rest : List (Nat × Nat)),
    Decidable (gapsTail pt pd rest)
  | _, _, [] => Decidable.isTrue trivial
  | pt, pd, (t, v) :: rest =>
    haveI : Decidable (gapsTail t (some (deltaOf pt t)) rest) :=
      gapsTailDecI t (some (deltaOf pt t)) rest
    inferInstanceAs (Decidable (_ ∧ _))

def GapsFit : List (Nat × Nat) → Prop
  | [] => True
  | (t0, _) :: rest => gapsTail t0 none rest

instance gapsFitDecI : ∀ (S : List (Nat × Nat)), Decidable (GapsFit S)
  | [] => Decidable.isTrue trivial
  | (t0, v0) :: rest => inferInstanceAs (Decidable (gapsTail t0 none rest))

/-- C1: the claim as stated is false on the code.  The sequence
`[(0,5), (0,5), (64,5)]` has timestamp gaps inside the 12-bit
delta-of-delta window (`d1 = 0`, `dod = 64`), yet the encoder stores
`dod = 64` in the seven-bit branch, whose two's-complement decoding is
`-64`, so the third timestamp decodes to `2 ^ 64 - 64` instead of `64`. -/
theorem claim_C1_counterexample :
    GapsFit [(0, 5), (0, 5), (64, 5)] ∧
    decompress_all (compressList [(0, 5), (0, 5), (64, 5)]) ≠ [(0, 5), (0, 5), (64, 5)] :=
  ⟨by decide, by decide⟩

/-- C1 (amended): compressing with `GorillaCompressor` (`compress_datapoint`
over each pair, then `finish`) and decompressing with
`GorillaDecompressor::decompress_all` returns exactly the input sequence,
with values compared by bit pattern, provided: every stored delta fits its
window with every delta-of-delta in the 12-bit window *excluding the two
values 64 and -64* (64 is mis-decoded by the asymmetric seven-bit branch,
-64 collides with the `0xFF` end marker), consecutive equal-value xors never
span all 64 bits, and the sequence is shorter than `2 ^ 32` samples (the
`u32` sample counter). -/
theorem claim_C1 (S : List (Nat × Nat))
    (h64 : ∀ p ∈ S, p.1 < 2 ^ 64 ∧ p.2 < 2 ^ 64)
    (hlen : S.length + 1 ≤ 2 ^ 32)
    (hgood : GoodSeq S) :
    decompress_all (compressList S) = S :=
  decompress_compress S h64 hlen hgood

/-- C1 witness: a concrete three-sample run of the amended round trip. -/
theorem claim_C1_witness :
    GoodSeq [(1000, 5), (1060, 6), (1120, 7)] ∧
    decompress_all (compressList [(1000, 5), (1060, 6), (1120, 7)]) =
      [(1000, 5), (1060, 6), (1120, 7)] :=
  ⟨by decide, claim_C1 [(1000, 5), (1060, 6), (1120, 7)]
    (by decide) (by decide) (by decide)⟩

/-- C7: writing any sequence of `(value, width)` pairs with widths in
`[1, 64]` and values below `2 ^ width` through `GorillaBitWriter::write_bits`
and reading the produced byte buffer back with `GorillaBitReader::read_bits`
using the identical widths in the identical order returns exactly the
written values. -/
theorem claim_C7 (ps : List (Nat × Nat)) (hok : SeqOK ps) :
    readSeq (GorillaBitReader.new (get_bytes (writeSeq GorillaBitWriter.new ps)))
      (ps.map Prod.snd) = some (ps.map Prod.fst) :=
  writeSeq_readSeq ps hok

/-- C7 witness: a concrete write/read run over three fields. -/
theorem claim_C7_witness :
    SeqOK [(5, 3), (0, 1), (255, 8)] ∧
    readSeq (GorillaBitReader.new (get_bytes (writeSeq GorillaBitWriter.new
      [(5, 3), (0, 1), (255, 8)]))) [3, 1, 8] = some [5, 0, 255] :=
  ⟨by decide, claim_C7 [(5, 3), (0, 1), (255, 8)] (by decide)⟩

/-- C10: `read_bits` with a width of zero or more than 64 returns `Some 0`
(never the `None` failure sentinel) and leaves the reader, in particular its
bit position, unchanged — on every reader state, regardless of how many bits
remain. -/
theorem claim_C10 (r : GorillaBitReader) (n : Nat) (h : n = 0 ∨ 64 < n) :
    read_bits r n = (some 0, r) := by
  rw [read_bits, if_pos h]

/-- C10 witness: width 0 and width 65 on a concrete reader state. -/
theorem claim_C10_witness :
    read_bits ⟨[17], 3⟩ 0 = (some 0, ⟨[17], 3⟩) ∧
    read_bits ⟨[17], 3⟩ 65 = (some 0, ⟨[17], 3⟩) :=
  ⟨claim_C10 ⟨[17], 3⟩ 0 (Or.inl rfl), claim_C10 ⟨[17], 3⟩ 65 (Or.inr (by omega))⟩

/-! ## Data model (`DataPoint`, `SeriesData`) -/

/-- A sample.  `value` is the f64 bit pattern; `tags` models the
`BTreeMap<String, String>` as a sorted association list. -/
structure DataPoint where
  timestamp : Nat
  value : Nat
  tags : List (String × String)
deriving Repr, DecidableEq

/-- One per-series block of a segment file. -/
structure SeriesData where
  series_key : String
  compressed_data : List Nat
  tags : List (String × String)
  min_timestamp : Nat
  max_timestamp : Nat
  count : Nat
deriving Repr, DecidableEq

/-! ## Memtable (`src/db/memtable.rs`)

The `BTreeMap<String, Vec<DataPoint>>` is modelled as an association list
kept sorted by key (as `BTreeMap` iteration is).  `usize` counters are `Nat`;
the unreachable wrap-around of `usize` subtraction below zero is not
modelled. -/

/-- `data.entry(key).or_default().push(dp)` on a sorted association list. -/
def mtInsert (data : List (String × List DataPoint)) (key : String) (dp : DataPoint) :
    List (String × List DataPoint) :=
  match data with
  | [] => [(key, [dp])]
  | (k, b) :: rest =>
    if key < k then (key, [dp]) :: (k, b) :: rest
    else if key = k then (k, b ++ [dp]) :: rest
    else (k, b) :: mtInsert rest key dp

/-- `data.get(key)`. -/
def mtGet (data : List (String × List DataPoint)) (key : String) :
    Option (List DataPoint) :=
  match data with
  | [] => none
  | (k, b) :: rest => if k = key then some b else mtGet rest key

/-- Replace the bucket stored at an existing key. -/
def mtSet (data : List (String × List DataPoint)) (key : String)
    (bucket : List DataPoint) : List (String × List DataPoint) :=
  match data with
  | [] => []
  | (k, b) :: rest => if k = key then (k, bucket) :: rest else (k, b) :: mtSet rest key bucket

/-- `data.remove(key)`. -/
def mtRemove (data : List (String × List DataPoint)) (key : String) :
    List (String × List DataPoint) :=
  match data with
  | [] => []
  | (k, b) :: rest => if k = key then rest else (k, b) :: mtRemove rest key

structure Memtable where
  data : List (String × List DataPoint)
  size : Nat
  threshold : Nat
deriving Repr, DecidableEq

def Memtable.new (threshold : Nat) : Memtable := ⟨[], 0, threshold⟩

/-- `Memtable::insert`. -/
def Memtable.insert (m : Memtable) (series_key : String) (dp : DataPoint) : Memtable :=
  { m with data := mtInsert m.data series_key dp, size := m.size + 1 }

/-- `Memtable::update`: replace the value of the first sample with the given
timestamp. -/
def replaceFirstValue (ts newValue : Nat) : List DataPoint → Bool × List DataPoint
  | [] => (false, [])
  | dp :: rest =>
    if dp.timestamp = ts then (true, { dp with value := newValue } :: rest)
    else
      let (found, rest') := replaceFirstValue ts newValue rest
      (found, dp :: rest')

def Memtable.update (m : Memtable) (series_key : String) (timestamp new_value : Nat) :
    Bool × Memtable :=
  match mtGet m.data series_key with
  | none => (false, m)
  | some datapoints =>
    let (found, datapoints') := replaceFirstValue timestamp new_value datapoints
    if found then (true, { m with data := mtSet m.data series_key datapoints' })
    else (false, m)

/-- `Memtable::delete`. -/
def Memtable.delete (m : Memtable) (series_key : String) (timestamp : Option Nat) :
    Bool × Memtable :=
  match timestamp with
  | some ts =>
    match mtGet m.data series_key with
    | some datapoints =>
      let retained := datapoints.filter fun dp => dp.timestamp ≠ ts
      let removed := retained.length < datapoints.length
      let size' := if removed then m.size - 1 else m.size
      let data' := if retained.isEmpty then mtRemove m.data series_key
        else mtSet m.data series_key retained
      (removed, { m with data := data', size := size' })
    | none => (false, m)
  | none =>
    match mtGet m.data series_key with
    | some datapoints =>
      (true, { m with data := mtRemove m.data series_key, size := m.size - datapoints.length })
    | none => (false, m)

/-- `Memtable::is_full`. -/
def Memtable.is_full (m : Memtable) : Bool := m.threshold ≤ m.size

/-- `Memtable::clear`. -/
def Memtable.clear (m : Memtable) : Memtable := { m with data := [], size := 0 }

/-- `Memtable::query`: the bucket filtered inclusively by the window, in
insertion order. -/
def Memtable.query (m : Memtable) (series_key : String)
    (start_time end_time : Option Nat) : List DataPoint :=
  match mtGet m.data series_key with
  | none => []
  | some datapoints =>
    datapoints.filter fun dp =>
      (match start_time with | some s => decide (s ≤ dp.timestamp) | none => true) &&
      (match end_time with | some e => decide (dp.timestamp ≤ e) | none => true)

/-! ## SSTable (`src/db/sstable.rs`)

A segment file is modelled by its logical content: `none` when the file does
not exist on disk, `some blocks` when it holds the bincode serialization of
`blocks`.  (A file written by `write_data` always deserializes back to the
block list that was written, so serialization is kept abstract; the error
paths for unreadable or corrupt bytes are modelled separately below for the
read-path functions, where the source downgrades them.) -/

abbrev SSTableFile : Type := Option (List SeriesData)

/-- The per-block selection loop shared by `query_series` (lines 181–218). -/
def seriesListQuery (series_list : List SeriesData) (series_key : String)
    (start_time end_time : Option Nat) : List DataPoint :=
  series_list.foldl
    (fun results series =>
      if series.series_key = series_key then
        if (match start_time with
            | some s => decide (series.max_timestamp < s)
            | none => false) then results
        else if (match end_time with
            | some e => decide (e < series.min_timestamp)
            | none => false) then results
        else
          results ++ (decompress_all series.compressed_data).filterMap fun p =>
            if (match start_time with
                | some s => decide (p.1 < s)
                | none => false) then none
            else if (match end_time with
                | some e => decide (e < p.1)
                | none => false) then none
            else some ⟨p.1, p.2, series.tags⟩
      else results)
    []

/-- `SSTable::query_series` on a well-formed (or absent) file.  A missing
file makes `read_with_mmap` fail, which the source downgrades to `Ok(vec![])`. -/
def sstable_query_series (file : SSTableFile) (series_key : String)
    (start_time end_time : Option Nat) : List DataPoint :=
  match file with
  | none => []
  | some series_list => seriesListQuery series_list series_key start_time end_time

/-- `SSTable::get_all_series_keys` on a well-formed (or absent) file. -/
def sstable_get_all_series_keys (file : SSTableFile) : List String :=
  match file with
  | none => []
  | some series_list => series_list.map fun s => s.series_key

/-- The `Some(ts)` loop of `delete_datapoint` (lines 113–137): walk the
blocks in order; at the first block whose key matches and which loses at
least one sample to `retain(timestamp != ts)`, either flag the whole-list
retain (when the block empties) or recompress with `count - 1`, then break.
Returns (rewritten list, deleted flag, whole-list-retain flag). -/
def delScan (series_key : String) (ts : Nat) :
    List SeriesData → List SeriesData × Bool × Bool
  | [] => ([], false, false)
  | s :: rest =>
    if s.series_key = series_key then
      let pts := decompress_all s.compressed_data
      let retained := pts.filter fun p => p.1 ≠ ts
      if retained.length < pts.length then
        if retained.isEmpty then (s :: rest, true, true)
        else
          ({ s with
             compressed_data := compressList retained,
             count := s.count - 1 } :: rest, true, false)
      else
        let r := delScan series_key ts rest
        (s :: r.1, r.2.1, r.2.2)
    else
      let r := delScan series_key ts rest
      (s :: r.1, r.2.1, r.2.2)

/-- `SSTable::delete_datapoint`.  The result file is `none` when the source
would call `delete_file` (all blocks gone), and unchanged content when
`deleted` stays false (the source only rewrites on a deletion). -/
def sstable_delete_datapoint (file : SSTableFile) (series_key : String)
    (timestamp : Option Nat) : Bool × SSTableFile :=
  match file with
  | none => (false, none)
  | some series_list =>
    match timestamp with
    | some ts =>
      let r := delScan series_key ts series_list
      let list1 := if r.2.2 then r.1.filter (fun s => s.series_key ≠ series_key) else r.1
      if r.2.1 then
        (if list1.isEmpty then (true, none) else (true, some list1))
      else (false, some series_list)
    | none =>
      let remaining := series_list.filter fun s => s.series_key ≠ series_key
      if remaining.length < series_list.length then
        (if remaining.isEmpty then (true, none) else (true, some remaining))
      else (false, some series_list)

/-! ### Read-path error downgrading (`query_series` lines 160–179,
`get_all_series_keys` lines 224–243)

To state the error-handling claim faithfully the read path is also modelled
one level lower: `read_result` is the outcome of `read_with_mmap` (raw bytes
or an I/O error) and `deser` the outcome of `bincode::deserialize` on those
bytes.  Both functions return `Except` as the source returns `Result`. -/

def query_series_checked (read_result : Except String (List Nat))
    (deser : List Nat → Except String (List SeriesData))
    (series_key : String) (start_time end_time : Option Nat) :
    Except String (List DataPoint) :=
  match read_result with
  | Except.error _ => Except.ok []
  | Except.ok data =>
    if data.isEmpty then Except.ok []
    else
      match deser data with
      | Except.error _ => Except.ok []
      | Except.ok series_list =>
        Except.ok (seriesListQuery series_list series_key start_time end_time)

def get_all_series_keys_checked (read_result : Except String (List Nat))
    (deser : List Nat → Except String (List SeriesData)) :
    Except String (List String) :=
  match read_result with
  | Except.error _ => Except.ok []
  | Except.ok data =>
    if data.isEmpty then Except.ok []
    else
      match deser data with
      | Except.error _ => Except.ok []
      | Except.ok series_list => Except.ok (series_list.map fun s => s.series_key)

/-! ## Engine (`src/db/engine.rs`)

The engine state is the memtable plus the ordered list of segment files.
Locks, paths and timestamps in file names are immaterial to the claims and
are not modelled. -/

structure TimeSeriesDB where
  memtable : Memtable
  sstables : List SSTableFile
deriving Repr, DecidableEq

/-- One `SeriesData` block as built by the per-series loops of
`flush_memtable` (lines 226–258) and `compact` (lines 332–368): compress the
samples in order, fold min/max timestamps from `u64::MAX`/`0`, take the first
non-empty tag map, `count` = number of samples. -/
def mkSeries (series_key : String) (datapoints : List DataPoint) : SeriesData :=
  ⟨series_key,
   compressList (datapoints.map fun dp => (dp.timestamp, dp.value)),
   datapoints.foldl (fun acc dp => if acc.isEmpty then dp.tags else acc) [],
   datapoints.foldl (fun acc dp => min acc dp.timestamp) (2 ^ 64 - 1),
   datapoints.foldl (fun acc dp => max acc dp.timestamp) 0,
   datapoints.length⟩

/-- `TimeSeriesDB::flush_memtable`. -/
def flush_memtable (db : TimeSeriesDB) : TimeSeriesDB :=
  let data := db.memtable.data
  let db1 : TimeSeriesDB := { db with memtable := db.memtable.clear }
  if data.isEmpty then db1
  else
    let series_data_list := data.filterMap fun kv =>
      if kv.2.isEmpty then none else some (mkSeries kv.1 kv.2)
    { db1 with sstables := db1.sstables ++ [some series_data_list] }

/-- `Vec::dedup_by_key(|dp| dp.timestamp)`: of each run of consecutive
samples with equal timestamps, keep the first. -/
def dedupByTimestamp (l : List DataPoint) : List DataPoint :=
  match l with
  | [] => []
  | [dp] => [dp]
  | a :: b :: rest =>
    if b.timestamp = a.timestamp then dedupByTimestamp (a :: rest)
    else a :: dedupByTimestamp (b :: rest)
termination_by l.length

/-- `TimeSeriesDB::query_range`: memtable results first, then every
segment's results in segment order, stable-sorted by timestamp and
deduplicated by timestamp. -/
def query_range (db : TimeSeriesDB) (series_key : String)
    (start_time end_time : Option Nat) : List DataPoint :=
  let results := db.memtable.query series_key start_time end_time ++
    db.sstables.flatMap fun f => sstable_query_series f series_key start_time end_time
  dedupByTimestamp
    (results.mergeSort fun a b => decide (a.timestamp ≤ b.timestamp))

/-- `all_series_data.entry(key).or_insert_with(Vec::new).extend(points)` on
the sorted association list modelling the `BTreeMap`. -/
def accAppend (acc : List (String × List DataPoint)) (key : String)
    (points : List DataPoint) : List (String × List DataPoint) :=
  match acc with
  | [] => [(key, points)]
  | (k, b) :: rest =>
    if key < k then (key, points) :: (k, b) :: rest
    else if key = k then (k, b ++ points) :: rest
    else (k, b) :: accAppend rest key points

/-- `TimeSeriesDB::compact`. -/
def compact (db : TimeSeriesDB) : TimeSeriesDB :=
  if db.sstables.length < 2 then db
  else
    let all_series_data := db.sstables.foldl
      (fun acc f =>
        (sstable_get_all_series_keys f).foldl
          (fun acc2 k => accAppend acc2 k (sstable_query_series f k none none))
          acc)
      []
    let db1 : TimeSeriesDB := { db with sstables := [] }
    if all_series_data.isEmpty then db1
    else
      let series_data_list := all_series_data.filterMap fun kv =>
        let dps := dedupByTimestamp
          ((kv.2).mergeSort fun a b => decide (a.timestamp ≤ b.timestamp))
        if dps.isEmpty then none else some (mkSeries kv.1 dps)
      { db1 with sstables := [some series_data_list] }

/-! ## Association-list lemmas for the memtable map -/

theorem mtGet_mtSet_self (data : List (String × List DataPoint)) (key : String)
    (b : List DataPoint) :
    mtGet (mtSet data key b) key = (mtGet data key).map fun _ => b := by
  induction data with
  | nil => rfl
  | cons kv rest ih =>
    obtain ⟨k, bk⟩ := kv
    by_cases h : k = key
    · simp [mtSet, mtGet, h]
    · simp [mtSet, mtGet, h, ih]

theorem mtGet_mtSet_ne (data : List (String × List DataPoint)) (key k : String)
    (b : List DataPoint) (h : k ≠ key) :
    mtGet (mtSet data key b) k = mtGet data k := by
  induction data with
  | nil => rfl
  | cons kv rest ih =>
    obtain ⟨k', bk⟩ := kv
    simp only [mtSet]
    by_cases h' : k' = key
    · subst h'
      simp [mtGet, Ne.symm h]
    · simp only [if_neg h', mtGet]
      by_cases h2 : k' = k
      · simp [h2]
      · simp [h2, ih]

theorem mtGet_mtRemove_self (data : List (String × List DataPoint)) (key : String)
    (hnd : (data.map Prod.fst).Nodup) :
    mtGet (mtRemove data key) key = none := by
  induction data with
  | nil => rfl
  | cons kv rest ih =>
    obtain ⟨k, bk⟩ := kv
    simp only [List.map_cons, List.nodup_cons] at hnd
    by_cases h : k = key
    · subst h
      simp only [mtRemove, if_pos rfl]
      have : ∀ d ∈ rest, (Prod.fst d) ≠ k := by
        intro d hd hc
        exact hnd.1 (hc ▸ List.mem_map_of_mem Prod.fst hd)
      clear ih hnd
      induction rest with
      | nil => rfl
      | cons kv2 rest2 ih2 =>
        obtain ⟨k2, b2⟩ := kv2
        have hk2 : k2 ≠ k := this (k2, b2) (List.mem_cons_self _ _)
        simp only [mtGet, if_neg hk2]
        exact ih2 fun d hd => this d (List.mem_cons_of_mem _ hd)
    · simp [mtRemove, mtGet, h, ih hnd.2]

theorem mtGet_mtRemove_ne (data : List (String × List DataPoint)) (key k : String)
    (h : k ≠ key) :
    mtGet (mtRemove data key) k = mtGet data k := by
  induction data with
  | nil => rfl
  | cons kv rest ih =>
    obtain ⟨k', bk⟩ := kv
    simp only [mtRemove]
    by_cases h' : k' = key
    · subst h'
      simp [mtGet, Ne.symm h]
    · simp only [if_neg h', mtGet]
      by_cases h2 : k' = k
      · simp [h2]
      · simp [h2, ih]

theorem filter_ne_length_lt_iff_any (l : List DataPoint) (ts : Nat) :
    (l.filter fun dp => dp.timestamp ≠ ts).length < l.length ↔
      l.any (fun dp => dp.timestamp == ts) = true := by
  induction l with
  | nil => simp
  | cons a l ih =>
    by_cases h : a.timestamp = ts
    · have h1 : ((a :: l).filter fun dp => dp.timestamp ≠ ts)
          = (l.filter fun dp => dp.timestamp ≠ ts) := by
        simp [List.filter_cons, h]
      have h2 : ((a :: l).any fun dp => dp.timestamp == ts) = true := by simp [h]
      rw [h1, h2]
      simp only [List.length_cons, iff_true]
      have h3 : (l.filter fun dp => dp.timestamp ≠ ts).length ≤ l.length :=
        List.length_filter_le _ l
      omega
    · have h1 : ((a :: l).filter fun dp => dp.timestamp ≠ ts)
          = a :: (l.filter fun dp => dp.timestamp ≠ ts) := by
        simp [List.filter_cons, h]
      have h2 : ((a :: l).any fun dp => dp.timestamp == ts)
          = (l.any fun dp => dp.timestamp == ts) := by simp [h]
      rw [h1, h2, List.length_cons, List.length_cons, Nat.succ_lt_succ_iff]
      exact ih

/-- C6 counterexample: with two samples of the same key at the same
timestamp, `delete(key, Some(ts))` removes both (the bucket empties and is
dropped) yet decrements the total count by exactly one, so the count is not
decremented by the number of samples removed as claimed: the final size is
`1`, not `2 - 2 = 0`. -/
theorem claim_C6_counterexample :
    Memtable.delete ⟨[("k", [⟨5, 1, []⟩, ⟨5, 2, []⟩])], 2, 100⟩ "k" (some 5)
      = (true, ⟨[], 1, 100⟩) ∧
    (Memtable.delete ⟨[("k", [⟨5, 1, []⟩, ⟨5, 2, []⟩])], 2, 100⟩ "k" (some 5)).2.size
      ≠ 2 - 2 :=
  ⟨by decide, by decide⟩

/-- C6 (amended): for every memtable whose keys are distinct (a `BTreeMap`
invariant), `delete(key, Some(ts))` retains exactly the samples of that key
whose timestamp differs from `ts`, decrements the total count by one if at
least one sample was removed (even when several samples shared the
timestamp) and by zero otherwise, drops the bucket exactly when it becomes
empty, leaves every other key and the threshold unchanged, and returns true
iff at least one sample was removed. -/
theorem claim_C6 (m : Memtable) (key : String) (ts : Nat)
    (hnd : (m.data.map Prod.fst).Nodup) :
    ((Memtable.delete m key (some ts)).1
        = ((mtGet m.data key).getD []).any fun dp => dp.timestamp == ts) ∧
    ((mtGet (Memtable.delete m key (some ts)).2.data key).getD []
        = ((mtGet m.data key).getD []).filter fun dp => dp.timestamp ≠ ts) ∧
    ((Memtable.delete m key (some ts)).2.size
        = if (((mtGet m.data key).getD []).any fun dp => dp.timestamp == ts) = true
          then m.size - 1 else m.size) ∧
    (mtGet (Memtable.delete m key (some ts)).2.data key = none ↔
        ((mtGet m.data key).getD []).filter (fun dp => dp.timestamp ≠ ts) = []) ∧
    (∀ k, k ≠ key → mtGet (Memtable.delete m key (some ts)).2.data k = mtGet m.data k) ∧
    (Memtable.delete m key (some ts)).2.threshold = m.threshold := by
  rcases hget : mtGet m.data key with _ | bucket
  · refine ⟨?_, ?_, ?_, ?_, ?_, ?_⟩ <;>
      simp [Memtable.delete, hget]
  · have hlt := filter_ne_length_lt_iff_any bucket ts
    have hdel : Memtable.delete m key (some ts)
        = (decide ((bucket.filter fun dp => dp.timestamp ≠ ts).length < bucket.length),
           ⟨if (bucket.filter fun dp => dp.timestamp ≠ ts).isEmpty
              then mtRemove m.data key
              else mtSet m.data key (bucket.filter fun dp => dp.timestamp ≠ ts),
            if (bucket.filter fun dp => dp.timestamp ≠ ts).length < bucket.length
              then m.size - 1 else m.size,
            m.threshold⟩) := by
      simp only [Memtable.delete, hget]
    rw [hdel]
    set retained := bucket.filter fun dp => dp.timestamp ≠ ts with hr
    refine ⟨?_, ?_, ?_, ?_, ?_, rfl⟩
    · by_cases hany : (bucket.any fun dp => dp.timestamp == ts) = true
      · simp only [hget, Option.getD_some, hany, decide_eq_true_eq]
        exact hlt.mpr hany
      · simp only [hget, Option.getD_some]
        have hnot : ¬ retained.length < bucket.length := fun hc => hany (hlt.mp hc)
        rw [decide_eq_false hnot]
        exact ((Bool.not_eq_true _).mp fun hc => hany hc).symm
    · by_cases hre : retained.isEmpty = true
      · rw [if_pos hre]
        rw [mtGet_mtRemove_self m.data key hnd]
        simp only [hget, Option.getD_some, Option.getD_none]
        exact (List.isEmpty_iff.mp hre).symm
      · rw [if_neg hre]
        rw [mtGet_mtSet_self m.data key retained, hget]
        simp [hget]
        simp only [hr, ne_eq, decide_not]
    · simp only [hget, Option.getD_some]
      rcases Nat.lt_or_ge retained.length bucket.length with hl | hl
      · rw [if_pos hl, if_pos (hlt.mp hl)]
      · rw [if_neg (Nat.not_lt.mpr hl), if_neg fun hc => absurd (hlt.mpr hc) (Nat.not_lt.mpr hl)]
    · by_cases hre : retained.isEmpty = true
      · rw [if_pos hre]
        simp only [hget, Option.getD_some]
        exact iff_of_true (mtGet_mtRemove_self m.data key hnd) (List.isEmpty_iff.mp hre)
      · rw [if_neg hre]
        simp only [hget, Option.getD_some]
        refine iff_of_false ?_ ?_
        · rw [mtGet_mtSet_self m.data key retained, hget]
          exact Option.some_ne_none _
        · exact fun hc => hre (List.isEmpty_iff.mpr hc)
    · intro k hk
      by_cases hre : retained.isEmpty = true
      · rw [if_pos hre]
        exact mtGet_mtRemove_ne m.data key k hk
      · rw [if_neg hre]
        exact mtGet_mtSet_ne m.data key k retained hk

/-- C6 witness: the amended delete theorem at a concrete two-key memtable. -/
theorem claim_C6_witness :
    (([("a", [(⟨1, 2, []⟩ : DataPoint)]), ("b", [⟨3, 4, []⟩])].map Prod.fst).Nodup) ∧
    (Memtable.delete ⟨[("a", [⟨1, 2, []⟩]), ("b", [⟨3, 4, []⟩])], 2, 10⟩ "a"
        (some 1)).2.threshold
      = (⟨[("a", [⟨1, 2, []⟩]), ("b", [⟨3, 4, []⟩])], 2, 10⟩ : Memtable).threshold :=
  ⟨by decide,
   (claim_C6 ⟨[("a", [⟨1, 2, []⟩]), ("b", [⟨3, 4, []⟩])], 2, 10⟩ "a" 1
      (by decide)).2.2.2.2.2⟩

/-- C8: on the read path, a failing `read_with_mmap` (left conjuncts) and a
failing `bincode::deserialize` (right conjuncts) are both downgraded by
`query_series` and `get_all_series_keys` to `Ok` with an empty vector
instead of propagating the error. -/
theorem claim_C8 (deser : List Nat → Except String (List SeriesData))
    (series_key : String) (start_time end_time : Option Nat)
    (msg : String) (data : List Nat) (hd : deser data = Except.error msg) :
    query_series_checked (Except.error msg) deser series_key start_time end_time
      = Except.ok [] ∧
    query_series_checked (Except.ok data) deser series_key start_time end_time
      = Except.ok [] ∧
    get_all_series_keys_checked (Except.error msg) deser = Except.ok [] ∧
    get_all_series_keys_checked (Except.ok data) deser = Except.ok [] := by
  refine ⟨rfl, ?_, rfl, ?_⟩
  · simp only [query_series_checked]
    by_cases he : data.isEmpty = true
    · rw [if_pos he]
    · rw [if_neg he, hd]
  · simp only [get_all_series_keys_checked]
    by_cases he : data.isEmpty = true
    · rw [if_pos he]
    · rw [if_neg he, hd]

/-- C8 witness: a one-byte segment whose deserialization always fails still
yields `Ok []` from the checked query. -/
theorem claim_C8_witness :
    ((fun _ : List Nat => (Except.error "bad" : Except String (List SeriesData))) [1]
        = Except.error "bad") ∧
    query_series_checked (Except.ok [1])
        (fun _ => Except.error "bad") "k" none none = Except.ok [] :=
  ⟨rfl, (claim_C8 (fun _ => Except.error "bad") "k" none none "bad" [1] rfl).2.1⟩

/-! ## Lemmas about `delScan` -/

theorem filter_fst_length_lt_iff_mem (l : List (Nat × Nat)) (ts : Nat) :
    ((l.filter fun p => p.1 ≠ ts).length < l.length) ↔ ts ∈ l.map Prod.fst := by
  induction l with
  | nil => simp
  | cons a l ih =>
    by_cases h : a.1 = ts
    · have h1 : ((a :: l).filter fun p => p.1 ≠ ts) = l.filter fun p => p.1 ≠ ts := by
        simp [List.filter_cons, h]
      rw [h1]
      have h3 : (l.filter fun p => p.1 ≠ ts).length ≤ l.length := List.length_filter_le _ l
      simp only [List.length_cons, List.map_cons, List.mem_cons]
      exact iff_of_true (by omega) (Or.inl h.symm)
    · have h1 : ((a :: l).filter fun p => p.1 ≠ ts) = a :: l.filter fun p => p.1 ≠ ts := by
        simp [List.filter_cons, h]
      rw [h1]
      simp only [List.length_cons, Nat.succ_lt_succ_iff, List.map_cons, List.mem_cons]
      rw [ih]
      constructor
      · exact Or.inr
      · rintro (hc | hc)
        · exact absurd hc.symm h
        · exact hc

theorem delScan_skip (k : String) (ts : Nat) (s : SeriesData) (l : List SeriesData)
    (h : s.series_key = k → ts ∉ (decompress_all s.compressed_data).map Prod.fst) :
    delScan k ts (s :: l)
      = (s :: (delScan k ts l).1, (delScan k ts l).2.1, (delScan k ts l).2.2) := by
  by_cases hk : s.series_key = k
  · have hnm := h hk
    have hnl : ¬ ((decompress_all s.compressed_data).filter fun p => p.1 ≠ ts).length
        < (decompress_all s.compressed_data).length :=
      fun hc => hnm ((filter_fst_length_lt_iff_mem _ ts).mp hc)
    simp only [delScan, if_pos hk, if_neg hnl]
  · simp only [delScan, if_neg hk]

theorem delScan_noHit (k : String) (ts : Nat) (l : List SeriesData)
    (h : ∀ s ∈ l, s.series_key = k → ts ∉ (decompress_all s.compressed_data).map Prod.fst) :
    delScan k ts l = (l, false, false) := by
  induction l with
  | nil => rfl
  | cons s rest ih =>
    rw [delScan_skip k ts s rest (h s (List.mem_cons_self _ _)),
        ih fun s2 hs2 => h s2 (List.mem_cons_of_mem _ hs2)]

theorem delScan_append (k : String) (ts : Nat) (pre l : List SeriesData)
    (h : ∀ s ∈ pre, s.series_key = k → ts ∉ (decompress_all s.compressed_data).map Prod.fst) :
    delScan k ts (pre ++ l)
      = (pre ++ (delScan k ts l).1, (delScan k ts l).2.1, (delScan k ts l).2.2) := by
  induction pre with
  | nil => rfl
  | cons s pre ih =>
    rw [List.cons_append, delScan_skip k ts s (pre ++ l) (h s (List.mem_cons_self _ _)),
        ih fun s2 hs2 => h s2 (List.mem_cons_of_mem _ hs2)]
    rfl

theorem delScan_hit (k : String) (ts : Nat) (B : SeriesData) (l : List SeriesData)
    (hB : B.series_key = k)
    (hts : ts ∈ (decompress_all B.compressed_data).map Prod.fst) :
    delScan k ts (B :: l) =
      if ((decompress_all B.compressed_data).filter fun p => p.1 ≠ ts).isEmpty
      then (B :: l, true, true)
      else ({ B with
              compressed_data :=
                compressList ((decompress_all B.compressed_data).filter fun p => p.1 ≠ ts),
              count := B.count - 1 } :: l, true, false) := by
  have hlt := (filter_fst_length_lt_iff_mem (decompress_all B.compressed_data) ts).mpr hts
  simp only [delScan, if_pos hB, if_pos hlt]

/-- Computation rule for `delete_datapoint` on an existing file in terms of
the scan of its block list. -/
theorem sstable_delete_some_scan (l res : List SeriesData) (k : String) (ts : Nat)
    (d rt : Bool) (hscan : delScan k ts l = (res, d, rt)) :
    sstable_delete_datapoint (some l) k (some ts)
      = (let list1 := if rt then res.filter (fun s => s.series_key ≠ k) else res
         if d then (if list1.isEmpty then (true, none) else (true, some list1))
         else (false, some l)) := by
  simp only [sstable_delete_datapoint, hscan]

/-- C5 counterexample: a block holding two samples with the claimed
timestamp.  The claim predicts that only the first sample is dropped, the
count becomes 1 and the file is rewritten with the one-sample block; the
code instead retains no sample with that timestamp, so the block empties and
the file is deleted. -/
theorem claim_C5_counterexample :
    sstable_delete_datapoint
        (some [⟨"k", compressList [(5, 1), (5, 2)], [], 5, 5, 2⟩]) "k" (some 5)
      = (true, none) ∧
    sstable_delete_datapoint
        (some [⟨"k", compressList [(5, 1), (5, 2)], [], 5, 5, 2⟩]) "k" (some 5)
      ≠ (true, some [⟨"k", compressList [(5, 2)], [], 5, 5, 1⟩]) := by
  have hdec : decompress_all (compressList [(5, 1), (5, 2)]) = [(5, 1), (5, 2)] :=
    decompress_compress [(5, 1), (5, 2)] (by decide) (by decide) (by decide)
  have hhit := delScan_hit "k" 5 ⟨"k", compressList [(5, 1), (5, 2)], [], 5, 5, 2⟩ []
    rfl (by rw [hdec]; decide)
  rw [hdec] at hhit
  have hf : ([(5, 1), (5, 2)].filter fun p : Nat × Nat => p.1 ≠ 5) = [] := by decide
  rw [hf] at hhit
  have heq : sstable_delete_datapoint
      (some [⟨"k", compressList [(5, 1), (5, 2)], [], 5, 5, 2⟩]) "k" (some 5)
      = (true, none) := by
    rw [sstable_delete_some_scan _ _ "k" 5 true true (by rw [hhit]; rfl)]
    rfl
  exact ⟨heq, by rw [heq]; decide⟩

/-- C5 (amended): for every segment file, `delete_datapoint(k, Some(ts))`
walks the blocks in order to the first block whose key is `k` and which
holds at least one sample at `ts`, and removes from it EVERY sample with
timestamp `ts`; when samples remain the block is recompressed with its count
decremented by exactly one (even if several samples were removed) and the
file rewritten; when the block empties, every block with key `k` is dropped
from the list, and the file is deleted only if no blocks at all remain; the
call returns true.  When no block with key `k` holds a sample at `ts` the
call returns false and the file is unchanged. -/
theorem claim_C5 (pre post : List SeriesData) (B : SeriesData) (k : String) (ts : Nat)
    (pts : List (Nat × Nat))
    (hpre : ∀ s ∈ pre, s.series_key = k → ts ∉ (decompress_all s.compressed_data).map Prod.fst)
    (hB : B.series_key = k)
    (hdec : decompress_all B.compressed_data = pts)
    (hts : ts ∈ pts.map Prod.fst) :
    (sstable_delete_datapoint (some (pre ++ B :: post)) k (some ts)
      = (true,
         if (pts.filter fun p => p.1 ≠ ts).isEmpty then
           (if ((pre ++ B :: post).filter fun s => s.series_key ≠ k).isEmpty then none
            else some ((pre ++ B :: post).filter fun s => s.series_key ≠ k))
         else some (pre ++ { B with
             compressed_data := compressList (pts.filter fun p => p.1 ≠ ts),
             count := B.count - 1 } :: post))) ∧
    ∀ l : List SeriesData,
      (∀ s ∈ l, s.series_key = k → ts ∉ (decompress_all s.compressed_data).map Prod.fst) →
      sstable_delete_datapoint (some l) k (some ts) = (false, some l) := by
  constructor
  · have hhit := delScan_hit k ts B post hB (hdec ▸ hts)
    rw [hdec] at hhit
    by_cases hre : (pts.filter fun p => p.1 ≠ ts).isEmpty = true
    · have hscan : delScan k ts (pre ++ B :: post) = (pre ++ B :: post, true, true) := by
        rw [delScan_append k ts pre (B :: post) hpre, hhit, if_pos hre]
      rw [if_pos hre, sstable_delete_some_scan (pre ++ B :: post) (pre ++ B :: post) k ts true true hscan]
      show (if ((pre ++ B :: post).filter fun s => s.series_key ≠ k).isEmpty = true
            then ((true, none) : Bool × SSTableFile)
            else (true, some ((pre ++ B :: post).filter fun s => s.series_key ≠ k)))
          = _
      by_cases hem : ((pre ++ B :: post).filter fun s => s.series_key ≠ k).isEmpty = true
      · rw [if_pos hem, if_pos hem]
      · rw [if_neg hem, if_neg hem]
    · have hscan : delScan k ts (pre ++ B :: post)
          = (pre ++ { B with
                compressed_data := compressList (pts.filter fun p => p.1 ≠ ts),
                count := B.count - 1 } :: post, true, false) := by
        rw [delScan_append k ts pre (B :: post) hpre, hhit, if_neg hre]
      rw [if_neg hre, sstable_delete_some_scan _ _ k ts true false hscan]
      show (if (pre ++ ({ B with
              compressed_data := compressList (pts.filter fun p => p.1 ≠ ts),
              count := B.count - 1 } :: post)).isEmpty = true
            then ((true, none) : Bool × SSTableFile)
            else (true, some (pre ++ { B with
              compressed_data := compressList (pts.filter fun p => p.1 ≠ ts),
              count := B.count - 1 } :: post)))
          = _
      have hne : ¬ (pre ++ ({ B with
            compressed_data := compressList (pts.filter fun p => p.1 ≠ ts),
            count := B.count - 1 } :: post)).isEmpty = true := by
        cases pre <;> simp [List.isEmpty]
      rw [if_neg hne]
  · intro l hl
    rw [sstable_delete_some_scan l l k ts false false (delScan_noHit k ts l hl)]
    rfl

/-- C5 witness: deleting timestamp 5 from a two-sample block leaves a
recompressed one-sample block with count decremented to 1. -/
theorem claim_C5_witness :
    (5 : Nat) ∈ ([(5, 1), (6, 2)].map (Prod.fst : Nat × Nat → Nat)) ∧
    sstable_delete_datapoint
        (some [⟨"k", compressList [(5, 1), (6, 2)], [], 5, 6, 2⟩]) "k" (some 5)
      = (true, some [⟨"k", compressList [(6, 2)], [], 5, 6, 1⟩]) := by
  refine ⟨by decide, ?_⟩
  have h := (claim_C5 [] [] ⟨"k", compressList [(5, 1), (6, 2)], [], 5, 6, 2⟩ "k" 5
      [(5, 1), (6, 2)] (by decide) rfl
      (decompress_compress [(5, 1), (6, 2)] (by decide) (by decide) (by decide))
      (by decide)).1
  rw [List.nil_append] at h
  rw [h]
  rfl

/-- C4: flushing a non-empty memtable empties it (no buckets, count 0) and
appends exactly one new segment whose blocks hold, per series key in order,
exactly the pre-flush samples of that key (checked through decompression),
with keys whose bucket held no samples omitted.  The codec hypotheses `hg`
restrict each bucket to sequences the Gorilla codec round-trips. -/
theorem claim_C4 (db : TimeSeriesDB) (hne : ¬ db.memtable.data.isEmpty = true)
    (hg : ∀ kv ∈ db.memtable.data,
        (∀ dp ∈ kv.2, dp.timestamp < 2 ^ 64 ∧ dp.value < 2 ^ 64) ∧
        kv.2.length + 1 ≤ 2 ^ 32 ∧
        GoodSeq (kv.2.map fun dp => (dp.timestamp, dp.value))) :
    ∃ blocks : List SeriesData,
      flush_memtable db = ⟨Memtable.clear db.memtable, db.sstables ++ [some blocks]⟩ ∧
      (flush_memtable db).memtable.data = [] ∧
      (flush_memtable db).memtable.size = 0 ∧
      blocks.map (fun b => (b.series_key, decompress_all b.compressed_data, b.count))
        = (db.memtable.data.filter fun kv => ¬ kv.2.isEmpty = true).map
            (fun kv => (kv.1, kv.2.map fun dp => (dp.timestamp, dp.value), kv.2.length)) := by
  refine ⟨db.memtable.data.filterMap fun kv =>
      if kv.2.isEmpty then none else some (mkSeries kv.1 kv.2), ?_, ?_, ?_, ?_⟩
  · simp only [flush_memtable]
    rw [if_neg hne]
  · simp only [flush_memtable]
    rw [if_neg hne]
    rfl
  · simp only [flush_memtable]
    rw [if_neg hne]
    rfl
  · have key : ∀ l : List (String × List DataPoint),
        (∀ kv ∈ l,
          (∀ dp ∈ kv.2, dp.timestamp < 2 ^ 64 ∧ dp.value < 2 ^ 64) ∧
          kv.2.length + 1 ≤ 2 ^ 32 ∧
          GoodSeq (kv.2.map fun dp => (dp.timestamp, dp.value))) →
        (l.filterMap fun kv =>
            if kv.2.isEmpty then none else some (mkSeries kv.1 kv.2)).map
            (fun b => (b.series_key, decompress_all b.compressed_data, b.count))
          = (l.filter fun kv => ¬ kv.2.isEmpty = true).map
              (fun kv => (kv.1, kv.2.map fun dp => (dp.timestamp, dp.value), kv.2.length)) := by
      intro l
      induction l with
      | nil => intro _; rfl
      | cons kv rest ih =>
        intro h
        have htail := ih fun kv2 h2 => h kv2 (List.mem_cons_of_mem _ h2)
        obtain ⟨k, dps⟩ := kv
        cases dps with
        | nil => simpa using htail
        | cons dp dps =>
          obtain ⟨h64, hlen, hgood⟩ := h (k, dp :: dps) (List.mem_cons_self _ _)
          have hdec : decompress_all
              (compressList ((dp :: dps).map fun d => (d.timestamp, d.value)))
              = (dp :: dps).map fun d => (d.timestamp, d.value) := by
            refine decompress_compress _ ?_ ?_ hgood
            · intro p hp
              obtain ⟨d, hd, rfl⟩ := List.mem_map.mp hp
              exact h64 d hd
            · rw [List.length_map]
              exact hlen
          show ((mkSeries k (dp :: dps)).series_key,
                 decompress_all (mkSeries k (dp :: dps)).compressed_data,
                 (mkSeries k (dp :: dps)).count)
               :: List.map (fun b => (b.series_key, decompress_all b.compressed_data, b.count))
                    (List.filterMap
                      (fun kv => if kv.2.isEmpty then none else some (mkSeries kv.1 kv.2)) rest)
             = (k, (dp :: dps).map fun d => (d.timestamp, d.value), (dp :: dps).length)
               :: List.map (fun kv => (kv.1, kv.2.map fun dp => (dp.timestamp, dp.value), kv.2.length))
                    (List.filter (fun kv => ¬ kv.2.isEmpty = true) rest)
          rw [htail]
          congr 1
          show (k, decompress_all (compressList ((dp :: dps).map fun d => (d.timestamp, d.value))),
                (dp :: dps).length)
             = (k, (dp :: dps).map fun d => (d.timestamp, d.value), (dp :: dps).length)
          rw [hdec]
    exact key db.memtable.data hg

/-- A concrete one-bucket engine state for the flush witness. -/
def flushW : TimeSeriesDB := ⟨⟨[("a", [⟨5, 7, []⟩])], 1, 10⟩, []⟩

/-- C4 witness: the flush theorem applied to a one-bucket memtable. -/
theorem claim_C4_witness :
    (¬ flushW.memtable.data.isEmpty = true) ∧
    ∃ blocks : List SeriesData,
      flush_memtable flushW = ⟨Memtable.clear flushW.memtable, flushW.sstables ++ [some blocks]⟩ ∧
      (flush_memtable flushW).memtable.data = [] ∧
      (flush_memtable flushW).memtable.size = 0 ∧
      blocks.map (fun b => (b.series_key, decompress_all b.compressed_data, b.count))
        = (flushW.memtable.data.filter fun kv => ¬ kv.2.isEmpty = true).map
            (fun kv => (kv.1, kv.2.map fun dp => (dp.timestamp, dp.value), kv.2.length)) :=
  ⟨by decide, claim_C4 flushW (by decide) (by decide)⟩

/-! ## Query-path evaluation helpers -/

theorem seriesListQuery_single_none (s : SeriesData) (k : String) (pts : List (Nat × Nat))
    (hk : s.series_key = k) (hdec : decompress_all s.compressed_data = pts) :
    seriesListQuery [s] k none none = pts.map fun p => ⟨p.1, p.2, s.tags⟩ := by
  simp only [seriesListQuery, List.foldl_cons, List.foldl_nil, if_pos hk, hdec]
  have hfm : ∀ l : List (Nat × Nat),
      (l.filterMap fun p =>
        if (match (none : Option Nat) with
            | some st => decide (p.1 < st)
            | none => false) = true then none
        else if (match (none : Option Nat) with
            | some en => decide (en < p.1)
            | none => false) = true then none
        else some (⟨p.1, p.2, s.tags⟩ : DataPoint))
        = l.map fun p => ⟨p.1, p.2, s.tags⟩ := by
    intro l
    induction l with
    | nil => rfl
    | cons a l ih =>
      show (⟨a.1, a.2, s.tags⟩ : DataPoint) :: _ = _
      rw [ih]
      rfl
  rw [List.nil_append]
  exact hfm pts

/-- Duplicate-insert flush scenario: two samples with the same key and
timestamp, values `v1` then `v2`, both in the memtable; after a flush,
`query_range(key, None, None)` yields one sample at that timestamp and its
value is `v1` — the segment stores both in insertion order and
`dedup_by_key` keeps the first of the run. -/
theorem flushDupQuery (k : String) (ts v1 v2 : Nat) (tg1 tg2 : List (String × String))
    (thr : Nat) (hts : ts < 2 ^ 64) (hv1 : v1 < 2 ^ 64) (hv2 : v2 < 2 ^ 64)
    (hgood : GoodSeq [(ts, v1), (ts, v2)]) :
    (query_range
        (flush_memtable ⟨((Memtable.new thr).insert k ⟨ts, v1, tg1⟩).insert k ⟨ts, v2, tg2⟩, []⟩)
        k none none).map (fun dp => (dp.timestamp, dp.value))
      = [(ts, v1)] := by
  have hm : (((Memtable.new thr).insert k ⟨ts, v1, tg1⟩).insert k ⟨ts, v2, tg2⟩).data
      = [(k, [⟨ts, v1, tg1⟩, ⟨ts, v2, tg2⟩])] := by
    simp [Memtable.new, Memtable.insert, mtInsert, lt_irrefl]
  have hflush : flush_memtable
        ⟨((Memtable.new thr).insert k ⟨ts, v1, tg1⟩).insert k ⟨ts, v2, tg2⟩, []⟩
      = ⟨⟨[], 0, thr⟩, [some [mkSeries k [⟨ts, v1, tg1⟩, ⟨ts, v2, tg2⟩]]]⟩ := by
    simp only [flush_memtable, hm]
    rfl
  have hdec : decompress_all (mkSeries k [⟨ts, v1, tg1⟩, ⟨ts, v2, tg2⟩]).compressed_data
      = [(ts, v1), (ts, v2)] :=
    decompress_compress [(ts, v1), (ts, v2)]
      (by
        intro p hp
        rcases List.mem_pair.mp hp with rfl | rfl
        · exact ⟨hts, hv1⟩
        · exact ⟨hts, hv2⟩)
      (by show (3 : Nat) ≤ 2 ^ 32; norm_num)
      hgood
  have hq : sstable_query_series (some [mkSeries k [⟨ts, v1, tg1⟩, ⟨ts, v2, tg2⟩]]) k none none
      = [⟨ts, v1, (mkSeries k [⟨ts, v1, tg1⟩, ⟨ts, v2, tg2⟩]).tags⟩,
         ⟨ts, v2, (mkSeries k [⟨ts, v1, tg1⟩, ⟨ts, v2, tg2⟩]).tags⟩] :=
    seriesListQuery_single_none (mkSeries k [⟨ts, v1, tg1⟩, ⟨ts, v2, tg2⟩]) k
      [(ts, v1), (ts, v2)] rfl hdec
  rw [hflush]
  simp only [query_range]
  rw [show Memtable.query ⟨[], 0, thr⟩ k none none = [] from rfl]
  rw [show (([some [mkSeries k [⟨ts, v1, tg1⟩, ⟨ts, v2, tg2⟩]]] : List SSTableFile).flatMap
        fun f => sstable_query_series f k none none)
      = sstable_query_series (some [mkSeries k [⟨ts, v1, tg1⟩, ⟨ts, v2, tg2⟩]]) k none none
        ++ [] from rfl]
  rw [hq, List.append_nil, List.nil_append]
  rw [List.mergeSort_of_sorted (by simp [List.pairwise_cons])]
  simp only [dedupByTimestamp]
  rfl

/-- C2 counterexample: inserting values 1 then 2 at the same key and
timestamp and flushing makes `query_range` return the sample with value 1,
not the claimed last write 2. -/
theorem claim_C2_counterexample :
    (query_range (flush_memtable
        ⟨((Memtable.new 100).insert "k" ⟨5, 1, []⟩).insert "k" ⟨5, 2, []⟩, []⟩) "k" none none).map
        (fun dp => (dp.timestamp, dp.value))
      = [(5, 1)] ∧
    (query_range (flush_memtable
        ⟨((Memtable.new 100).insert "k" ⟨5, 1, []⟩).insert "k" ⟨5, 2, []⟩, []⟩) "k" none none).map
        (fun dp => (dp.timestamp, dp.value))
      ≠ [(5, 2)] := by
  have h := flushDupQuery "k" 5 1 2 [] [] 100 (by norm_num) (by norm_num) (by norm_num)
    (by decide)
  exact ⟨h, by rw [h]; decide⟩

/-- C2 (amended): if two samples with the same series key and the same
timestamp, with values v1 then v2 in that order, are inserted and both reach
the memtable with no flush in between, then after a flush,
query(key, None, None) yields exactly one sample at that timestamp and its
value is v1, the FIRST write: the flushed segment stores both samples in
insertion order and dedup_by_key keeps the first of each run of equal
timestamps.  (Side conditions: the pair must be codec round-trippable.) -/
theorem claim_C2 (k : String) (ts v1 v2 : Nat) (tg1 tg2 : List (String × String))
    (thr : Nat) (hts : ts < 2 ^ 64) (hv1 : v1 < 2 ^ 64) (hv2 : v2 < 2 ^ 64)
    (hgood : GoodSeq [(ts, v1), (ts, v2)]) :
    (query_range
        (flush_memtable ⟨((Memtable.new thr).insert k ⟨ts, v1, tg1⟩).insert k ⟨ts, v2, tg2⟩, []⟩)
        k none none).map (fun dp => (dp.timestamp, dp.value))
      = [(ts, v1)] :=
  flushDupQuery k ts v1 v2 tg1 tg2 thr hts hv1 hv2 hgood

/-- C2 witness: the duplicate-insert scenario at key "cpu", timestamp 7,
values 3 then 4. -/
theorem claim_C2_witness :
    GoodSeq [(7, 3), (7, 4)] ∧
    (query_range (flush_memtable
        ⟨((Memtable.new 10).insert "cpu" ⟨7, 3, []⟩).insert "cpu" ⟨7, 4, []⟩, []⟩) "cpu" none none).map
        (fun dp => (dp.timestamp, dp.value))
      = [(7, 3)] :=
  ⟨by decide, claim_C2 "cpu" 7 3 4 [] [] 10 (by norm_num) (by norm_num) (by norm_num)
    (by decide)⟩

/-- Cross-store tie scenario: a memtable sample and a segment sample share a
timestamp; `query_range` puts the memtable results first, the stable sort
keeps them first, and `dedup_by_key` keeps the first of the run, so the
memtable copy wins. -/
theorem memSegTieQuery (k : String) (ts vm vs : Nat) (tgm tgs : List (String × String))
    (sz thr mn mx cnt : Nat)
    (hts : ts < 2 ^ 64) (hvs : vs < 2 ^ 64) (hgood : GoodSeq [(ts, vs)]) :
    query_range ⟨⟨[(k, [⟨ts, vm, tgm⟩])], sz, thr⟩,
        [some [⟨k, compressList [(ts, vs)], tgs, mn, mx, cnt⟩]]⟩ k none none
      = [⟨ts, vm, tgm⟩] := by
  have hdec : decompress_all
      (⟨k, compressList [(ts, vs)], tgs, mn, mx, cnt⟩ : SeriesData).compressed_data
      = [(ts, vs)] :=
    decompress_compress [(ts, vs)]
      (by
        intro p hp
        rw [List.mem_singleton] at hp
        subst hp
        exact ⟨hts, hvs⟩)
      (by show (2 : Nat) ≤ 2 ^ 32; norm_num)
      hgood
  have hq : sstable_query_series (some [⟨k, compressList [(ts, vs)], tgs, mn, mx, cnt⟩])
      k none none = [⟨ts, vs, tgs⟩] :=
    seriesListQuery_single_none _ k [(ts, vs)] rfl hdec
  have hmq : Memtable.query ⟨[(k, [⟨ts, vm, tgm⟩])], sz, thr⟩ k none none
      = [⟨ts, vm, tgm⟩] := by
    simp [Memtable.query, mtGet]
  simp only [query_range]
  rw [hmq]
  rw [show (([some [⟨k, compressList [(ts, vs)], tgs, mn, mx, cnt⟩]] : List SSTableFile).flatMap
        fun f => sstable_query_series f k none none)
      = sstable_query_series (some [⟨k, compressList [(ts, vs)], tgs, mn, mx, cnt⟩]) k none none
        ++ [] from rfl]
  rw [hq, List.append_nil, List.singleton_append]
  rw [List.mergeSort_of_sorted (by simp [List.pairwise_cons])]
  simp only [dedupByTimestamp]
  rfl

/-- C3 counterexample: on a memtable/segment timestamp collision the query
returns the memtable copy (value 10), not the claimed segment copy
(value 20). -/
theorem claim_C3_counterexample :
    query_range ⟨⟨[("k", [⟨5, 10, []⟩])], 1, 100⟩,
        [some [⟨"k", compressList [(5, 20)], [], 5, 5, 1⟩]]⟩ "k" none none
      = [⟨5, 10, []⟩] ∧
    query_range ⟨⟨[("k", [⟨5, 10, []⟩])], 1, 100⟩,
        [some [⟨"k", compressList [(5, 20)], [], 5, 5, 1⟩]]⟩ "k" none none
      ≠ [⟨5, 20, []⟩] := by
  have h := memSegTieQuery "k" 5 10 20 [] [] 1 100 5 5 1 (by norm_num) (by norm_num)
    (by decide)
  exact ⟨h, by rw [h]; decide⟩

/-- C3 (amended): in the engine's range query, when a memtable sample and a
segment sample of the same series key carry an equal timestamp, the merged,
sorted, deduplicated result contains exactly one sample at that timestamp
and it is the MEMTABLE's copy: memtable samples are appended before segment
samples, the sort is stable, and dedup keeps the first occurrence, so the
memtable wins the cross-store tie-break. -/
theorem claim_C3 (k : String) (ts vm vs : Nat) (tgm tgs : List (String × String))
    (sz thr mn mx cnt : Nat)
    (hts : ts < 2 ^ 64) (hvs : vs < 2 ^ 64) (hgood : GoodSeq [(ts, vs)]) :
    query_range ⟨⟨[(k, [⟨ts, vm, tgm⟩])], sz, thr⟩,
        [some [⟨k, compressList [(ts, vs)], tgs, mn, mx, cnt⟩]]⟩ k none none
      = [⟨ts, vm, tgm⟩] :=
  memSegTieQuery k ts vm vs tgm tgs sz thr mn mx cnt hts hvs hgood

/-- C3 witness: the tie scenario at key "mem", timestamp 9, memtable value
1 versus segment value 2. -/
theorem claim_C3_witness :
    GoodSeq [(9, 2)] ∧
    query_range ⟨⟨[("mem", [⟨9, 1, []⟩])], 1, 4⟩,
        [some [⟨"mem", compressList [(9, 2)], [], 9, 9, 1⟩]]⟩ "mem" none none
      = [⟨9, 1, []⟩] :=
  ⟨by decide, claim_C3 "mem" 9 1 2 [] [] 1 4 9 9 1 (by norm_num) (by norm_num) (by decide)⟩

/-! ## Lemmas for `compact` -/

/-- The accumulated per-key data read from all segments during `compact`
(the `all_series_data` map). -/
def compactAllData (db : TimeSeriesDB) : List (String × List DataPoint) :=
  db.sstables.foldl
    (fun acc f =>
      (sstable_get_all_series_keys f).foldl
        (fun acc2 k => accAppend acc2 k (sstable_query_series f k none none))
        acc)
    []

/-- The block list of the compacted segment. -/
def compactBlocks (db : TimeSeriesDB) : List SeriesData :=
  (compactAllData db).filterMap fun kv =>
    let dps := dedupByTimestamp ((kv.2).mergeSort fun a b => decide (a.timestamp ≤ b.timestamp))
    if dps.isEmpty then none else some (mkSeries kv.1 dps)

theorem compact_eq (db : TimeSeriesDB) :
    compact db = if db.sstables.length < 2 then db
      else if (compactAllData db).isEmpty then ⟨db.memtable, []⟩
      else ⟨db.memtable, [some (compactBlocks db)]⟩ := by
  simp only [compact, compactAllData, compactBlocks]

theorem dedupByTimestamp_subset : ∀ (l : List DataPoint), ∀ dp ∈ dedupByTimestamp l, dp ∈ l := by
  have key : ∀ (n : Nat) (l : List DataPoint), l.length ≤ n →
      ∀ dp ∈ dedupByTimestamp l, dp ∈ l := by
    intro n
    induction n with
    | zero =>
      intro l hl
      match l with
      | [] => intro dp hdp; simp [dedupByTimestamp] at hdp
      | a :: l2 => simp at hl
    | succ n ih =>
      intro l hl dp hdp
      match l with
      | [] => simp [dedupByTimestamp] at hdp
      | [a] => simpa [dedupByTimestamp] using hdp
      | a :: b :: rest =>
        simp only [dedupByTimestamp] at hdp
        by_cases hb : b.timestamp = a.timestamp
        · rw [if_pos hb] at hdp
          have h2 := ih (a :: rest) (by simp at hl ⊢; omega) dp hdp
          rcases List.mem_cons.mp h2 with rfl | h3
          · exact List.mem_cons_self _ _
          · exact List.mem_cons_of_mem _ (List.mem_cons_of_mem _ h3)
        · rw [if_neg hb] at hdp
          rcases List.mem_cons.mp hdp with rfl | hdp2
          · exact List.mem_cons_self _ _
          · exact List.mem_cons_of_mem _ (ih (b :: rest) (by simp at hl ⊢; omega) dp hdp2)
  exact fun l => key l.length l (Nat.le_refl _)

theorem accAppend_pres (R : String → DataPoint → Prop) (acc : List (String × List DataPoint))
    (key : String) (pts : List DataPoint)
    (hacc : ∀ kv ∈ acc, ∀ dp ∈ kv.2, R kv.1 dp)
    (hpts : ∀ dp ∈ pts, R key dp) :
    ∀ kv ∈ accAppend acc key pts, ∀ dp ∈ kv.2, R kv.1 dp := by
  induction acc with
  | nil =>
    intro kv hkv dp hdp
    simp only [accAppend] at hkv
    rcases List.mem_singleton.mp hkv with rfl
    exact hpts dp hdp
  | cons hd rest ih =>
    obtain ⟨k', b⟩ := hd
    intro kv hkv dp hdp
    simp only [accAppend] at hkv
    by_cases h1 : key < k'
    · rw [if_pos h1] at hkv
      rcases List.mem_cons.mp hkv with rfl | hkv2
      · exact hpts dp hdp
      · exact hacc kv hkv2 dp hdp
    · rw [if_neg h1] at hkv
      by_cases h2 : key = k'
      · rw [if_pos h2] at hkv
        rcases List.mem_cons.mp hkv with rfl | hkv2
        · rcases List.mem_append.mp hdp with hdp1 | hdp2
          · exact hacc (k', b) (List.mem_cons_self _ _) dp hdp1
          · exact h2 ▸ hpts dp hdp2
        · exact hacc kv (List.mem_cons_of_mem _ hkv2) dp hdp
      · rw [if_neg h2] at hkv
        rcases List.mem_cons.mp hkv with rfl | hkv2
        · exact hacc (k', b) (List.mem_cons_self _ _) dp hdp
        · exact ih (fun kv2 hkv2' dp2 hdp2 =>
            hacc kv2 (List.mem_cons_of_mem _ hkv2') dp2 hdp2) kv hkv2 dp hdp

theorem foldl_accAppend_pres (R : String → DataPoint → Prop) (q : String → List DataPoint)
    (hq : ∀ k, ∀ dp ∈ q k, R k dp) :
    ∀ (ks : List String) (acc : List (String × List DataPoint)),
      (∀ kv ∈ acc, ∀ dp ∈ kv.2, R kv.1 dp) →
      ∀ kv ∈ ks.foldl (fun acc2 k => accAppend acc2 k (q k)) acc, ∀ dp ∈ kv.2, R kv.1 dp := by
  intro ks
  induction ks with
  | nil => intro acc hacc; exact hacc
  | cons k ks ih =>
    intro acc hacc
    simp only [List.foldl_cons]
    exact ih _ (accAppend_pres R acc k (q k) hacc (hq k))

theorem compactAllData_pres (db : TimeSeriesDB) :
    ∀ kv ∈ compactAllData db, ∀ dp ∈ kv.2,
      ∃ g ∈ db.sstables, dp ∈ sstable_query_series g kv.1 none none := by
  have main : ∀ (fs : List SSTableFile), (∀ f ∈ fs, f ∈ db.sstables) →
      ∀ acc : List (String × List DataPoint),
      (∀ kv ∈ acc, ∀ dp ∈ kv.2, ∃ g ∈ db.sstables, dp ∈ sstable_query_series g kv.1 none none) →
      ∀ kv ∈ fs.foldl
        (fun acc f =>
          (sstable_get_all_series_keys f).foldl
            (fun acc2 k => accAppend acc2 k (sstable_query_series f k none none))
            acc)
        acc,
      ∀ dp ∈ kv.2, ∃ g ∈ db.sstables, dp ∈ sstable_query_series g kv.1 none none := by
    intro fs
    induction fs with
    | nil => intro _ acc hacc; exact hacc
    | cons f fs ih =>
      intro hmem acc hacc
      simp only [List.foldl_cons]
      refine ih (fun f2 h2 => hmem f2 (List.mem_cons_of_mem _ h2)) _ ?_
      exact foldl_accAppend_pres
        (fun k2 dp => ∃ g ∈ db.sstables, dp ∈ sstable_query_series g k2 none none)
        (fun k2 => sstable_query_series f k2 none none)
        (fun k dp hdp => ⟨f, hmem f (List.mem_cons_self _ _), hdp⟩)
        (sstable_get_all_series_keys f) acc hacc
  exact main db.sstables (fun _ h => h) []
    (fun kv hkv => absurd hkv (List.not_mem_nil _))

/-- C9: `compact` never touches the memtable — it is unchanged in every
case (including the fewer-than-two-segments no-op) — and every sample
compressed into the compacted segment was obtained by querying one of the
old segments, so samples present only in the memtable cannot appear in it. -/
theorem claim_C9 (db : TimeSeriesDB) :
    (compact db).memtable = db.memtable ∧
    (db.sstables.length < 2 → compact db = db) ∧
    (2 ≤ db.sstables.length →
      ∀ f ∈ (compact db).sstables, ∀ b ∈ f.getD [],
        ∃ dps, dps ≠ [] ∧ b = mkSeries b.series_key dps ∧
          ∀ dp ∈ dps, ∃ g ∈ db.sstables,
            dp ∈ sstable_query_series g b.series_key none none) := by
  by_cases hlt : db.sstables.length < 2
  · have hc : compact db = db := by rw [compact_eq, if_pos hlt]
    exact ⟨by rw [hc], fun _ => hc, fun h2 => absurd hlt (by omega)⟩
  · by_cases hem : (compactAllData db).isEmpty = true
    · have hc : compact db = ⟨db.memtable, []⟩ := by
        rw [compact_eq, if_neg hlt, if_pos hem]
      refine ⟨by rw [hc], fun hl => absurd hl hlt, fun _ f hf b hb => ?_⟩
      rw [hc] at hf
      exact absurd hf (List.not_mem_nil f)
    · have hc : compact db = ⟨db.memtable, [some (compactBlocks db)]⟩ := by
        rw [compact_eq, if_neg hlt, if_neg hem]
      refine ⟨by rw [hc], fun hl => absurd hl hlt, fun _ f hf b hb => ?_⟩
      rw [hc] at hf
      rcases List.mem_singleton.mp hf with rfl
      simp only [Option.getD_some] at hb
      obtain ⟨kv, hkv, hfb⟩ := List.mem_filterMap.mp hb
      simp only at hfb
      by_cases hde : (dedupByTimestamp
          ((kv.2).mergeSort fun a b => decide (a.timestamp ≤ b.timestamp))).isEmpty = true
      · rw [if_pos hde] at hfb
        exact absurd hfb (by simp)
      · rw [if_neg hde] at hfb
        have hbe : mkSeries kv.1 (dedupByTimestamp
            ((kv.2).mergeSort fun a b => decide (a.timestamp ≤ b.timestamp))) = b :=
          Option.some.inj hfb
        refine ⟨dedupByTimestamp
            ((kv.2).mergeSort fun a b => decide (a.timestamp ≤ b.timestamp)), ?_, ?_, ?_⟩
        · intro hc2
          exact hde (by rw [hc2]; rfl)
        · rw [← hbe]
          rfl
        · intro dp hdp
          have h1 : dp ∈ (kv.2).mergeSort fun a b => decide (a.timestamp ≤ b.timestamp) :=
            dedupByTimestamp_subset _ dp hdp
          have h2 : dp ∈ kv.2 := (List.mergeSort_perm kv.2 _).mem_iff.mp h1
          have hks : b.series_key = kv.1 := by rw [← hbe]; rfl
          rw [hks]
          exact compactAllData_pres db kv hkv dp h2

/-- C9 witness: the compact theorem at a two-segment state whose files are
both absent; the memtable bucket survives untouched. -/
theorem claim_C9_witness :
    (compact ⟨⟨[("m", [⟨1, 2, []⟩])], 1, 5⟩, [none, none]⟩).memtable
      = (⟨[("m", [⟨1, 2, []⟩])], 1, 5⟩ : Memtable) ∧
    (∀ f ∈ (compact ⟨⟨[("m", [⟨1, 2, []⟩])], 1, 5⟩, [none, none]⟩).sstables,
      ∀ b ∈ f.getD [],
        ∃ dps, dps ≠ [] ∧ b = mkSeries b.series_key dps ∧
          ∀ dp ∈ dps, ∃ g ∈ ([none, none] : List SSTableFile),
            dp ∈ sstable_query_series g b.series_key none none) :=
  ⟨(claim_C9 ⟨⟨[("m", [⟨1, 2, []⟩])], 1, 5⟩, [none, none]⟩).1,
   (claim_C9 ⟨⟨[("m", [⟨1, 2, []⟩])], 1, 5⟩, [none, none]⟩).2.2 (by decide)⟩

end TSDB
